import Mathlib

/-!
# M4RI `misc.h`: block cache allocator and word-level bit operations

A shallow embedding of the memory-block cache (`m4ri_mmc_malloc`, `m4ri_mmc_calloc`,
`m4ri_mmc_free`, `m4ri_mmc_cleanup`), of the bit-mask and single-bit macros, and of
`swap_bits` and `lesser_LSB` of `src/misc.h`.

Conventions of the embedding.

* A pointer is a natural number, `NULL` is `0`. A `size_t` is a natural number; the one
  place where `size_t` arithmetic can wrap (`size * count` in `m4ri_mmc_calloc`) is reduced
  modulo `2 ^ 64` explicitly.
* The global array `m4ri_mmc_cache[M4RI_MMC_NBLOCKS]` is a list of slots, the function-local
  `static int j` of `m4ri_mmc_free` is the field `j` of the cache state. A cache state of the
  program has exactly `M4RI_MMC_NBLOCKS` slots and a cursor below `M4RI_MMC_NBLOCKS`
  (predicate `Cache.WF`). The `for (i = 0; i < M4RI_MMC_NBLOCKS; ++i)` loops walk the list
  from its head.
* The C library (`malloc`, `free`) and `m4ri_die` are outside the program. Every call to
  them is recorded, in order, in a trace of `Ext` events; the pointer the system `malloc`
  hands back is an argument `sys` of the embedding of the allocating functions.
* `M4RI_MMC_THRESHOLD` is `CPU_L2_CACHE`, a configure-time constant whose fallback value is
  `524288`; the operations take it as the argument `thr`.
* A `word` is a natural number below `2 ^ 64`; `int` arguments of the macros are integers.
-/

namespace M4RI

/-! ## Memory management -/

/-- The fallback value of `CPU_L2_CACHE` (used when configure could not determine it). -/
def CPU_L2_CACHE : Nat := 524288

/-- Maximal size of blocks stored in cache (default configuration). -/
def M4RI_MMC_THRESHOLD : Nat := CPU_L2_CACHE

/-- Number of blocks that are cached. -/
def M4RI_MMC_NBLOCKS : Nat := 16

/-- A cache slot `struct _mm_block`: size in bytes of the data, pointer to the data. -/
structure mmb_t where
  size : Nat
  data : Nat
deriving DecidableEq

/-- Calls that leave the program: the system `malloc`, the system `free`, `m4ri_die`. -/
inductive Ext where
  | malloc (size : Nat)
  | free (p : Nat)
  | die
deriving DecidableEq

/-- The state of the cache: the array `m4ri_mmc_cache` and the `static int j` of
`m4ri_mmc_free`. -/
structure Cache where
  mm : List mmb_t
  j : Nat
deriving DecidableEq

/-- A cache state of the program: `M4RI_MMC_NBLOCKS` slots, cursor within the array. -/
def Cache.WF (c : Cache) : Prop :=
  c.mm.length = M4RI_MMC_NBLOCKS ∧ c.j < M4RI_MMC_NBLOCKS

instance (c : Cache) : Decidable c.WF := by
  unfold Cache.WF; exact inferInstance

/-- The cache at program start: static storage, every slot `{0, NULL}`, `j = 0`. -/
def Cache.init : Cache :=
  { mm := List.replicate M4RI_MMC_NBLOCKS { size := 0, data := 0 }, j := 0 }

/-- Result of an allocating function: the cache afterwards, the returned pointer
(`none` when the call ended in `m4ri_die` and did not return), the external calls made. -/
structure Alloc where
  cache : Cache
  ret : Option Nat
  trace : List Ext
deriving DecidableEq

/-- Result of a `void` function: the cache afterwards and the external calls made. -/
structure Eff where
  cache : Cache
  trace : List Ext
deriving DecidableEq

/-- The wrapper `m4ri_mm_malloc(size)`: call `malloc(size)`, which answers `sys`; a `NULL` answer for
`size > 0` is fatal. Returns the pointer (or `none` after `m4ri_die`) and the calls made. -/
def m4ri_mm_malloc (size sys : Nat) : Option Nat × List Ext :=
  if sys = 0 ∧ size > 0 then (none, [Ext.malloc size, Ext.die])
  else (some sys, [Ext.malloc size])

/-- The wrapper `m4ri_mm_free(condemned)`: call `free(condemned)`. -/
def m4ri_mm_free (condemned : Nat) : List Ext :=
  [Ext.free condemned]

/-- The scan of `m4ri_mmc_malloc`:
`for i: if (mm[i].size == size) { ret = mm[i].data; mm[i].data = NULL; mm[i].size = 0; break; }`
started with `ret = NULL`. Returns `ret` and the array afterwards. -/
def mallocScan (size : Nat) : List mmb_t → Nat × List mmb_t
  | [] => (0, [])
  | b :: rest =>
    if b.size = size then (b.data, { size := 0, data := 0 } :: rest)
    else ((mallocScan size rest).1, b :: (mallocScan size rest).2)

/-- The cache part of `m4ri_mmc_malloc`: the scan runs only if
`size <= M4RI_MMC_THRESHOLD`; otherwise `ret` stays `NULL`. -/
def mmcLookup (thr : Nat) (c : Cache) (size : Nat) : Nat × List mmb_t :=
  if size ≤ thr then mallocScan size c.mm else (0, c.mm)

/-- The function `m4ri_mmc_malloc(size)`: `if (ret) return ret; else return m4ri_mm_malloc(size);`
after the scan. -/
def m4ri_mmc_malloc (thr : Nat) (c : Cache) (size sys : Nat) : Alloc :=
  let r := mmcLookup thr c size
  if r.1 ≠ 0 then
    { cache := { c with mm := r.2 }, ret := some r.1, trace := [] }
  else
    { cache := { c with mm := r.2 }, ret := (m4ri_mm_malloc size sys).1,
      trace := (m4ri_mm_malloc size sys).2 }

/-- The scan of `m4ri_mmc_free`:
`for i: if (mm[i].size == 0) { mm[i].size = size; mm[i].data = condemned; return; }`.
`some` array when the function returned from inside the loop, `none` when the loop ran out. -/
def freeScan (condemned size : Nat) : List mmb_t → Option (List mmb_t)
  | [] => none
  | b :: rest =>
    if b.size = 0 then some ({ size := size, data := condemned } :: rest)
    else (freeScan condemned size rest).map (fun r => b :: r)

/-- The function `m4ri_mmc_free(condemned, size)`. -/
def m4ri_mmc_free (thr : Nat) (c : Cache) (condemned size : Nat) : Eff :=
  if size < thr then
    match freeScan condemned size c.mm with
    | some mm' => { cache := { c with mm := mm' }, trace := [] }
    | none =>
      { cache := { mm := c.mm.set c.j { size := size, data := condemned },
                   j := (c.j + 1) % M4RI_MMC_NBLOCKS },
        trace := m4ri_mm_free (c.mm.getD c.j { size := 0, data := 0 }).data }
  else
    { cache := c, trace := m4ri_mm_free condemned }

/-- The loop of `m4ri_mmc_cleanup`:
`for i: { if (mm[i].size) m4ri_mm_free(mm[i].data); mm[i].size = 0; }`. -/
def cleanupLoop : List mmb_t → List mmb_t × List Ext
  | [] => ([], [])
  | b :: rest =>
    ({ b with size := 0 } :: (cleanupLoop rest).1,
     (if b.size ≠ 0 then m4ri_mm_free b.data else []) ++ (cleanupLoop rest).2)

/-- The function `m4ri_mmc_cleanup()`. -/
def m4ri_mmc_cleanup (c : Cache) : Eff :=
  { cache := { c with mm := (cleanupLoop c.mm).1 }, trace := (cleanupLoop c.mm).2 }

/-- The call `memset(p, 0, n)` on a byte-addressed memory. -/
def memsetZero (mem : Nat → Nat) (p n : Nat) : Nat → Nat :=
  fun a => if p ≤ a ∧ a < p + n then 0 else mem a

/-- The function `m4ri_mmc_calloc(size, count)`:
`ret = m4ri_mmc_malloc(size * count); memset(ret, 0, count * size); return ret;`
with both products taken in `size_t`. The memory is only touched when the allocation
returned. -/
def m4ri_mmc_calloc (thr : Nat) (c : Cache) (size count sys : Nat) (mem : Nat → Nat) :
    Alloc × (Nat → Nat) :=
  let r := m4ri_mmc_malloc thr c ((size * count) % 2 ^ 64) sys
  match r.ret with
  | some p => (r, memsetZero mem p ((count * size) % 2 ^ 64))
  | none => (r, mem)

/-- A call of the cache interface, with the answer of the system `malloc` where one may be
asked for. -/
inductive Op where
  | malloc (size sys : Nat)
  | calloc (size count sys : Nat)
  | free (condemned size : Nat)
  | cleanup
deriving DecidableEq

/-- The cache after one call. -/
def step (thr : Nat) (c : Cache) : Op → Cache
  | Op.malloc size sys => (m4ri_mmc_malloc thr c size sys).cache
  | Op.calloc size count sys => (m4ri_mmc_calloc thr c size count sys (fun _ => 0)).1.cache
  | Op.free condemned size => (m4ri_mmc_free thr c condemned size).cache
  | Op.cleanup => (m4ri_mmc_cleanup c).cache

/-- The cache after a sequence of calls. -/
def run (thr : Nat) (c : Cache) (ops : List Op) : Cache :=
  ops.foldl (step thr) c

/-- Several `m4ri_mmc_free` calls in a row, one per block `(size, data)` of the list:
the cache afterwards and the concatenated trace. -/
def freeAll (thr : Nat) (c : Cache) : List mmb_t → Eff
  | [] => { cache := c, trace := [] }
  | b :: bs =>
    let r := m4ri_mmc_free thr c b.data b.size
    let r' := freeAll thr r.cache bs
    { cache := r'.cache, trace := r.trace ++ r'.trace }

/-- The slot that receives the block in `m4ri_mmc_free` (below the threshold): the first
slot with `size == 0`, the slot at the cursor when there is none. -/
def recvSlot (c : Cache) : Nat :=
  if c.mm.findIdx (fun b => b.size == 0) < c.mm.length
  then c.mm.findIdx (fun b => b.size == 0) else c.j

/-! ## Words and bit masks -/

/-- The number of bits in a word. -/
def RADIX : Int := 64

/-- The number one as a word. -/
def ONE : Nat := 1

/-- A word with all bits set, `CONVERT_TO_WORD(-1)`. -/
def FFFF : Nat := 2 ^ 64 - 1

/-- The C expression `w >> k` on a `word` (defined for `0 <= k < 64`). -/
def shr (w : Nat) (k : Int) : Nat := w >>> k.toNat

/-- The C expression `w << k` on a `word` (defined for `0 <= k < 64`): bits shifted past
bit 63 are lost. -/
def shl (w : Nat) (k : Int) : Nat := (w <<< k.toNat) % 2 ^ 64

/-- The macro `LEFT_BITMASK(n)`, `(FFFF >> (RADIX - (n)) % RADIX)`: `%` binds tighter than
`>>`, and on `int` it truncates towards zero. -/
def LEFT_BITMASK (n : Int) : Nat := shr FFFF (Int.tmod (RADIX - n) RADIX)

/-- The macro `RIGHT_BITMASK(n)`, `(FFFF << (RADIX - (n)))`. -/
def RIGHT_BITMASK (n : Int) : Nat := shl FFFF (RADIX - n)

/-- Number of set bits among the 64 bits of a word. -/
def popcount (w : Nat) : Nat := ((List.range 64).filter (fun i => w.testBit i)).length

/-- The macro `MIDDLE_BITMASK(n, offset)`, `(LEFT_BITMASK(n) << (offset))`. -/
def MIDDLE_BITMASK (n offset : Int) : Nat := shl (LEFT_BITMASK n) offset

/-- The conversion `CONVERT_TO_WORD(i)`, `((word)(i))`: the integer reduced modulo `2^64`. -/
def CONVERT_TO_WORD (i : Int) : Nat := (i % 2 ^ 64).toNat

/-- The conversion `CONVERT_TO_BIT(w)`, `((BIT)(w))`: a word converted to the 32-bit `int`. -/
def CONVERT_TO_BIT (w : Nat) : Int := Int.bmod (w : Int) (2 ^ 32)

/-- The C expression `~w` on a `word`. -/
def notw (w : Nat) : Nat := FFFF ^^^ w

/-- The C expression `-w` on a `word`: negation modulo `2^64`. -/
def negw (w : Nat) : Nat := (2 ^ 64 - w) % 2 ^ 64

/-- The C expression `a - b` on `uint64_t`: subtraction modulo `2^64`. -/
def subw (a b : Nat) : Nat := (a + 2 ^ 64 - b) % 2 ^ 64

/-- The macro `SET_BIT(w, spot)`, `((w) |= (ONE << (spot)))`: the new value of `w`. -/
def SET_BIT (w : Nat) (spot : Int) : Nat := w ||| shl ONE spot

/-- The macro `GET_BIT(w, spot)`, `CONVERT_TO_BIT(((w) >> (spot)) & ONE)`. -/
def GET_BIT (w : Nat) (spot : Int) : Int := CONVERT_TO_BIT (shr w spot &&& ONE)

/-- The macro `WRITE_BIT(w, spot, value)`,
`((w) = (((w) & ~(ONE << (spot))) | (-CONVERT_TO_WORD(value) & (ONE << (spot)))))`:
the new value of `w`. -/
def WRITE_BIT (w : Nat) (spot value : Int) : Nat :=
  (w &&& notw (shl ONE spot)) ||| (negw (CONVERT_TO_WORD value) &&& shl ONE spot)

/-- The macro `FLIP_BIT(w, spot)`, `((w) ^= (ONE << (spot)))`: the new value of `w`. -/
def FLIP_BIT (w : Nat) (spot : Int) : Nat := w ^^^ shl ONE spot

/-- The function `swap_bits(v)`: six reassignments of `v`. -/
def swap_bits (v : Nat) : Nat :=
  let v := (shr v 1 &&& 0x5555555555555555) ||| shl (v &&& 0x5555555555555555) 1
  let v := (shr v 2 &&& 0x3333333333333333) ||| shl (v &&& 0x3333333333333333) 2
  let v := (shr v 4 &&& 0x0F0F0F0F0F0F0F0F) ||| shl (v &&& 0x0F0F0F0F0F0F0F0F) 4
  let v := (shr v 8 &&& 0x00FF00FF00FF00FF) ||| shl (v &&& 0x00FF00FF00FF00FF) 8
  let v := (shr v 16 &&& 0x0000FFFF0000FFFF) ||| shl (v &&& 0x0000FFFF0000FFFF) 16
  let v := shr v 32 ||| shl v 32
  v

/-- The function `lesser_LSB(a, b)`, `return !(ib ? ((ia - 1) ^ ia) & ib : !ia);`.
The conditional expression has type `uint64_t`; `!` yields the `int` 0 or 1. -/
def lesser_LSB (a b : Nat) : Int :=
  let ia := a
  let ib := b
  let t : Nat := if ib ≠ 0 then (subw ia 1 ^^^ ia) &&& ib else (if ia = 0 then 1 else 0)
  if t = 0 then 1 else 0

/-- Index of the lowest set bit among the `n` low-order bits of `w`, and `n` when none of
them is set. -/
def lowestSetBit : Nat → Nat → Nat
  | 0, _ => 0
  | n + 1, w => if w % 2 = 1 then 0 else lowestSetBit n (w / 2) + 1

/-- The index `LSBI(w)` of the documentation of `lesser_LSB`: the index of the least
significant bit that is set in `w`, or 64 if `w` is zero. -/
def LSBI (w : Nat) : Nat := lowestSetBit 64 w

/-! ## Concrete inputs -/

/-- Seventeen blocks with pointers `1000 .. 1016` and sizes `8, 16, .., 136`. -/
def blocks17 : List mmb_t :=
  (List.range 17).map (fun i => { size := 8 * (i + 1), data := 1000 + i })

/-- Seventeen blocks with pointers `1000 .. 1016` and sizes `0, 1, .., 16`: the first
block has size zero. -/
def blocks17z : List mmb_t :=
  (List.range 17).map (fun i => { size := i, data := 1000 + i })

/-- A cache whose slot 0 holds 16 bytes at address `4096`, all other slots empty. -/
def cacheOne : Cache :=
  { mm := { size := 16, data := 4096 } :: List.replicate 15 { size := 0, data := 0 }, j := 0 }

/-! ## Lemmas on the scans -/

theorem freeScan_eq (p s : Nat) (mm : List mmb_t) :
    freeScan p s mm =
      if mm.findIdx (fun b => b.size == 0) < mm.length
      then some (mm.set (mm.findIdx (fun b => b.size == 0)) { size := s, data := p })
      else none := by
  induction mm with
  | nil => simp [freeScan]
  | cons b rest ih =>
    by_cases hb : b.size = 0
    · simp [freeScan, List.findIdx_cons, hb]
    · have hb' : (b.size == 0) = false := by simpa using hb
      rw [freeScan, if_neg hb, ih, List.findIdx_cons, hb']
      simp only [cond_false, List.length_cons, Nat.add_lt_add_iff_right]
      split <;> simp

theorem freeScan_append (p s : Nat) (filled : List mmb_t) (e : mmb_t) (rest : List mmb_t)
    (hf : ∀ b ∈ filled, b.size ≠ 0) (he : e.size = 0) :
    freeScan p s (filled ++ e :: rest) = some (filled ++ { size := s, data := p } :: rest) := by
  induction filled with
  | nil => simp [freeScan, he]
  | cons b bs ih =>
    have hb : b.size ≠ 0 := hf b (List.mem_cons_self _ _)
    have ih' := ih (fun x hx => hf x (List.mem_cons_of_mem _ hx))
    simp [freeScan, hb, ih']

theorem freeScan_full (p s : Nat) (mm : List mmb_t) (hf : ∀ b ∈ mm, b.size ≠ 0) :
    freeScan p s mm = none := by
  induction mm with
  | nil => rfl
  | cons b bs ih =>
    have hb : b.size ≠ 0 := hf b (List.mem_cons_self _ _)
    simp [freeScan, hb, ih (fun x hx => hf x (List.mem_cons_of_mem _ hx))]

theorem mallocScan_set (p s : Nat) (mm : List mmb_t) (k : Nat) (hk : k < mm.length)
    (hbefore : ∀ b ∈ mm.take k, b.size ≠ s) :
    mallocScan s (mm.set k { size := s, data := p }) =
      (p, mm.set k { size := 0, data := 0 }) := by
  induction mm generalizing k with
  | nil => simp at hk
  | cons b rest ih =>
    cases k with
    | zero => simp [mallocScan]
    | succ k =>
      have hb : b.size ≠ s := hbefore b (by simp)
      have hk' : k < rest.length := by simpa using hk
      have ih' := ih k hk' (fun x hx => hbefore x (by simp [hx]))
      simp [mallocScan, hb, ih']

theorem mallocScan_miss (s : Nat) (mm : List mmb_t) (hmiss : ∀ b ∈ mm, b.size ≠ s) :
    mallocScan s mm = (0, mm) := by
  induction mm with
  | nil => rfl
  | cons b rest ih =>
    have hb : b.size ≠ s := hmiss b (List.mem_cons_self _ _)
    simp [mallocScan, hb, ih (fun x hx => hmiss x (List.mem_cons_of_mem _ hx))]

/-- The effect of `m4ri_mmc_free` below the threshold, in closed form: the block goes to
the receiving slot; there is a release, and a cursor step, exactly when no slot is empty. -/
theorem m4ri_mmc_free_below (thr : Nat) (c : Cache) (p s : Nat) (hs : s < thr) :
    m4ri_mmc_free thr c p s =
      if c.mm.findIdx (fun b => b.size == 0) < c.mm.length then
        { cache := { mm := c.mm.set (recvSlot c) { size := s, data := p }, j := c.j },
          trace := [] }
      else
        { cache := { mm := c.mm.set (recvSlot c) { size := s, data := p },
                     j := (c.j + 1) % M4RI_MMC_NBLOCKS },
          trace := [Ext.free (c.mm.getD c.j { size := 0, data := 0 }).data] } := by
  unfold m4ri_mmc_free recvSlot
  rw [if_pos hs, freeScan_eq]
  by_cases h : c.mm.findIdx (fun b => b.size == 0) < c.mm.length
  · simp only [h, if_true]
  · simp only [h, if_false, m4ri_mm_free]

theorem recvSlot_lt (c : Cache) (hc : c.WF) : recvSlot c < c.mm.length := by
  unfold recvSlot
  split
  · assumption
  · rw [hc.1]; exact hc.2

theorem m4ri_mmc_free_below_mm (thr : Nat) (c : Cache) (p s : Nat) (hs : s < thr) :
    (m4ri_mmc_free thr c p s).cache.mm = c.mm.set (recvSlot c) { size := s, data := p } := by
  rw [m4ri_mmc_free_below thr c p s hs]
  split <;> rfl

theorem m4ri_mmc_malloc_miss (thr : Nat) (c : Cache) (s sys : Nat)
    (hmiss : ∀ b ∈ c.mm, b.size ≠ s) :
    m4ri_mmc_malloc thr c s sys =
      { cache := c, ret := (m4ri_mm_malloc s sys).1, trace := (m4ri_mm_malloc s sys).2 } := by
  have hl : mmcLookup thr c s = (0, c.mm) := by
    unfold mmcLookup
    split
    · exact mallocScan_miss s c.mm hmiss
    · rfl
  simp [m4ri_mmc_malloc, hl]

theorem freeAll_append (thr : Nat) (c : Cache) (l₁ l₂ : List mmb_t) :
    freeAll thr c (l₁ ++ l₂) =
      { cache := (freeAll thr (freeAll thr c l₁).cache l₂).cache,
        trace := (freeAll thr c l₁).trace ++ (freeAll thr (freeAll thr c l₁).cache l₂).trace } := by
  induction l₁ generalizing c with
  | nil => simp [freeAll]
  | cons b bs ih => simp [freeAll, ih]

/-- Freeing blocks of nonzero size below the threshold into a cache with enough empty
slots fills the empty slots in order, releases nothing and leaves the cursor alone. -/
theorem freeAll_fill (thr j : Nat) (bs filled es : List mmb_t)
    (hf : ∀ b ∈ filled, b.size ≠ 0) (he : ∀ b ∈ es, b.size = 0)
    (hb : ∀ b ∈ bs, 0 < b.size ∧ b.size < thr) (hlen : bs.length ≤ es.length) :
    freeAll thr { mm := filled ++ es, j := j } bs =
      { cache := { mm := filled ++ bs ++ es.drop bs.length, j := j }, trace := [] } := by
  induction bs generalizing filled es with
  | nil => simp [freeAll]
  | cons b bs ih =>
    cases es with
    | nil => simp at hlen
    | cons e es =>
      have hb0 := hb b (List.mem_cons_self _ _)
      have hfree : m4ri_mmc_free thr { mm := filled ++ e :: es, j := j } b.data b.size =
          { cache := { mm := (filled ++ [b]) ++ es, j := j }, trace := [] } := by
        unfold m4ri_mmc_free
        rw [if_pos hb0.2]
        simp only [freeScan_append b.data b.size filled e es hf (he e (List.mem_cons_self _ _))]
        simp
      have hf' : ∀ x ∈ filled ++ [b], x.size ≠ 0 := by
        intro x hx
        rcases List.mem_append.1 hx with h | h
        · exact hf x h
        · rw [List.mem_singleton.1 h]; exact Nat.pos_iff_ne_zero.1 hb0.1
      have ih' := ih (filled ++ [b]) es hf' (fun x hx => he x (List.mem_cons_of_mem _ hx))
        (fun x hx => hb x (List.mem_cons_of_mem _ hx)) (by simpa using hlen)
      simp only [freeAll, hfree, ih']
      simp

/-- The 17-block scenario in split form: the blocks `pre ++ ev :: post` fill the empty
cache, the last block `b17` then replaces `ev`, the block in the slot at the cursor. -/
theorem freeAll_capacity_core (thr : Nat) (es pre post : List mmb_t) (ev b17 : mmb_t)
    (he : ∀ b ∈ es, b.size = 0) (hlen : es.length = pre.length + 1 + post.length)
    (hb : ∀ b ∈ pre ++ ev :: post ++ [b17], 0 < b.size ∧ b.size < thr) :
    freeAll thr { mm := es, j := pre.length } (pre ++ ev :: post) =
      { cache := { mm := pre ++ ev :: post, j := pre.length }, trace := [] } ∧
    freeAll thr { mm := es, j := pre.length } (pre ++ ev :: post ++ [b17]) =
      { cache := { mm := pre ++ b17 :: post, j := (pre.length + 1) % M4RI_MMC_NBLOCKS },
        trace := [Ext.free ev.data] } := by
  have h16 : freeAll thr { mm := es, j := pre.length } (pre ++ ev :: post) =
      { cache := { mm := pre ++ ev :: post, j := pre.length }, trace := [] } := by
    have h := freeAll_fill thr pre.length (pre ++ ev :: post) [] es (by simp) he
      (fun x hx => hb x (by simp at hx ⊢; tauto)) (by simp [hlen]; omega)
    have hd : es.drop (pre ++ ev :: post).length = [] := by
      apply List.drop_eq_nil_of_le; simp [hlen]; omega
    rw [hd] at h
    simpa using h
  refine ⟨h16, ?_⟩
  have hfull : ∀ x ∈ pre ++ ev :: post, x.size ≠ 0 := fun x hx =>
    Nat.pos_iff_ne_zero.1 (hb x (by simp at hx ⊢; tauto)).1
  have h17 := hb b17 (by simp)
  rw [freeAll_append, h16]
  have hg : (pre ++ ev :: post).getD pre.length { size := 0, data := 0 } = ev := by
    rw [List.getD_eq_getElem?_getD, List.getElem?_append_right (Nat.le_refl _)]
    simp
  simp only [freeAll, m4ri_mmc_free, if_pos h17.2, freeScan_full _ _ _ hfull, m4ri_mm_free, hg]
  simp

theorem split_at_cursor (bs : List mmb_t) (j : Nat)
    (hlen : bs.length = M4RI_MMC_NBLOCKS + 1) (hj : j < M4RI_MMC_NBLOCKS) :
    ∃ pre ev post b17, bs = pre ++ ev :: post ++ [b17] ∧ pre.length = j := by
  unfold M4RI_MMC_NBLOCKS at hlen hj
  have h1 : j < bs.length := by omega
  have htail : bs.drop (j + 1) ≠ [] := by
    intro h
    have := congrArg List.length h
    simp at this
    omega
  refine ⟨bs.take j, bs[j], (bs.drop (j + 1)).dropLast, (bs.drop (j + 1)).getLast htail, ?_, ?_⟩
  · rw [List.append_assoc, List.cons_append, List.dropLast_append_getLast,
      List.getElem_cons_drop, List.take_append_drop]
  · simp; omega

/-! ## The block cache: round trip and capacity -/

/-- C1 (as amended). For every cache state of the program, every non-null pointer `p` and
every size `s` below the threshold: if no slot in front of the slot that receives the block
(the first slot with `size == 0`, or the slot at the cursor when the cache is full) has size
`s`, then `m4ri_mmc_free(p, s)` immediately followed by `m4ri_mmc_malloc(s)` returns exactly
`p` and makes no call to the underlying allocator. -/
theorem mmc_free_malloc_roundtrip (thr : Nat) (c : Cache) (p s sys : Nat)
    (hc : c.WF) (hs : s < thr) (hp : p ≠ 0)
    (hbefore : ∀ b ∈ c.mm.take (recvSlot c), b.size ≠ s) :
    (m4ri_mmc_malloc thr (m4ri_mmc_free thr c p s).cache s sys).ret = some p ∧
    (m4ri_mmc_malloc thr (m4ri_mmc_free thr c p s).cache s sys).trace = [] := by
  have hl : mmcLookup thr (m4ri_mmc_free thr c p s).cache s =
      (p, c.mm.set (recvSlot c) { size := 0, data := 0 }) := by
    unfold mmcLookup
    rw [if_pos (Nat.le_of_lt hs), m4ri_mmc_free_below_mm thr c p s hs]
    exact mallocScan_set p s c.mm (recvSlot c) (recvSlot_lt c hc) hbefore
  simp [m4ri_mmc_malloc, hl, hp]

/-- Witness for C1 (as amended): the cache holds a block of size 8 in slot 0,
a block of size 16 is freed and allocated again. -/
theorem mmc_free_malloc_roundtrip_witness :
    (m4ri_mmc_malloc M4RI_MMC_THRESHOLD
      (m4ri_mmc_free M4RI_MMC_THRESHOLD
        { mm := { size := 8, data := 100 } :: List.replicate 15 { size := 0, data := 0 },
          j := 0 } 200 16).cache 16 0).ret = some 200 ∧
    (m4ri_mmc_malloc M4RI_MMC_THRESHOLD
      (m4ri_mmc_free M4RI_MMC_THRESHOLD
        { mm := { size := 8, data := 100 } :: List.replicate 15 { size := 0, data := 0 },
          j := 0 } 200 16).cache 16 0).trace = [] :=
  mmc_free_malloc_roundtrip M4RI_MMC_THRESHOLD
    { mm := { size := 8, data := 100 } :: List.replicate 15 { size := 0, data := 0 }, j := 0 }
    200 16 0 (by decide) (by decide) (by decide) (by decide)

/-- C1 fails as stated. From the initial cache, after `m4ri_mmc_free(100, 8)` the state holds
a block of size 8; then `m4ri_mmc_free(200, 8)` followed by `m4ri_mmc_malloc(8)` returns
`100`, not `200`. And for the null pointer, `m4ri_mmc_free(NULL, 8)` followed by
`m4ri_mmc_malloc(8)` calls the underlying allocator and returns its answer. -/
theorem mmc_free_malloc_roundtrip_counterexample :
    (m4ri_mmc_free M4RI_MMC_THRESHOLD Cache.init 100 8).cache.WF ∧
    8 < M4RI_MMC_THRESHOLD ∧
    (m4ri_mmc_malloc M4RI_MMC_THRESHOLD
      (m4ri_mmc_free M4RI_MMC_THRESHOLD
        (m4ri_mmc_free M4RI_MMC_THRESHOLD Cache.init 100 8).cache 200 8).cache 8 300).ret
      = some 100 ∧
    m4ri_mmc_malloc M4RI_MMC_THRESHOLD
      (m4ri_mmc_free M4RI_MMC_THRESHOLD Cache.init 0 8).cache 8 300
      = { cache := Cache.init, ret := some 300, trace := [Ext.malloc 8] } := by
  decide

/-- C2 (as amended). Starting from an empty cache (every slot has `size == 0`; any cursor),
for every sequence of 17 `m4ri_mmc_free` calls on distinct pointers with pairwise different
nonzero sizes, all below the threshold: the first 16 calls release nothing and fill the
slots in order; the 17th releases exactly one block, the one in the slot at the cursor, and
takes its slot, the cursor advancing by one modulo 16; the other 16 blocks are cached; no
slot holds the evicted pointer or the evicted size, so `m4ri_mmc_malloc` of the evicted
size leaves the cache alone and gets its result from the underlying allocator. -/
theorem mmc_capacity_seventeen (thr : Nat) (c : Cache) (bs : List mmb_t)
    (hc : c.WF) (hempty : ∀ b ∈ c.mm, b.size = 0)
    (hlen : bs.length = M4RI_MMC_NBLOCKS + 1)
    (hsz : ∀ b ∈ bs, 0 < b.size ∧ b.size < thr)
    (hsizes : (bs.map mmb_t.size).Nodup) (hptrs : (bs.map mmb_t.data).Nodup) :
    freeAll thr c (bs.take M4RI_MMC_NBLOCKS) =
      { cache := { mm := bs.take M4RI_MMC_NBLOCKS, j := c.j }, trace := [] } ∧
    (freeAll thr c bs).trace = [Ext.free (bs.getD c.j { size := 0, data := 0 }).data] ∧
    (freeAll thr c bs).cache =
      { mm := (bs.take M4RI_MMC_NBLOCKS).set c.j
                (bs.getD M4RI_MMC_NBLOCKS { size := 0, data := 0 }),
        j := (c.j + 1) % M4RI_MMC_NBLOCKS } ∧
    (∀ b ∈ bs, b ≠ bs.getD c.j { size := 0, data := 0 } → b ∈ (freeAll thr c bs).cache.mm) ∧
    (∀ b ∈ (freeAll thr c bs).cache.mm,
      b.data ≠ (bs.getD c.j { size := 0, data := 0 }).data ∧
      b.size ≠ (bs.getD c.j { size := 0, data := 0 }).size) ∧
    ∀ sys, m4ri_mmc_malloc thr (freeAll thr c bs).cache
        (bs.getD c.j { size := 0, data := 0 }).size sys =
      { cache := (freeAll thr c bs).cache,
        ret := (m4ri_mm_malloc (bs.getD c.j { size := 0, data := 0 }).size sys).1,
        trace := (m4ri_mm_malloc (bs.getD c.j { size := 0, data := 0 }).size sys).2 } := by
  obtain ⟨mm, j⟩ := c
  obtain ⟨hmm, hj⟩ := hc
  simp only at hmm hj hempty ⊢
  obtain ⟨pre, ev, post, b17, rfl, rfl⟩ := split_at_cursor bs j hlen hj
  have hl16 : (pre ++ ev :: post).length = M4RI_MMC_NBLOCKS := by
    simp at hlen ⊢; omega
  have htake : (pre ++ ev :: post ++ [b17]).take M4RI_MMC_NBLOCKS = pre ++ ev :: post :=
    List.take_left' hl16
  have hev : (pre ++ ev :: post ++ [b17]).getD pre.length { size := 0, data := 0 } = ev := by
    rw [List.append_assoc, List.cons_append, List.getD_eq_getElem?_getD,
      List.getElem?_append_right (Nat.le_refl _)]
    simp
  have h17 : (pre ++ ev :: post ++ [b17]).getD M4RI_MMC_NBLOCKS { size := 0, data := 0 }
      = b17 := by
    rw [List.getD_eq_getElem?_getD, List.getElem?_append_right (Nat.le_of_eq hl16), hl16]
    simp
  have hset : (pre ++ ev :: post).set pre.length b17 = pre ++ b17 :: post := by
    rw [List.set_append_right _ _ (Nat.le_refl _)]
    simp
  have hcore := freeAll_capacity_core thr mm pre post ev b17 hempty
    (by simp at hl16; rw [hmm]; unfold M4RI_MMC_NBLOCKS at hl16 ⊢; omega) hsz
  rw [htake, hev, h17, hset, hcore.2]
  have hnd1 : ∀ b ∈ pre ++ b17 :: post, b.size ≠ ev.size := by
    intro b hb heq
    simp only [List.map_append, List.map_cons, List.map_nil] at hsizes
    have hb' : b ∈ pre ∨ b = b17 ∨ b ∈ post := by simpa using hb
    have hmem : ∀ l : List mmb_t, b ∈ l → ev.size ∈ l.map mmb_t.size := fun l hl =>
      heq ▸ List.mem_map_of_mem mmb_t.size hl
    rw [List.nodup_append, List.nodup_append] at hsizes
    rcases hb' with h | h | h
    · exact hsizes.1.2.2 (hmem pre h) (by simp)
    · subst h
      exact hsizes.2.2 (show ev.size ∈ _ by simp) (by simp [heq])
    · have := hsizes.1.2.1
      rw [List.nodup_cons] at this
      exact this.1 (hmem post h)
  have hnd2 : ∀ b ∈ pre ++ b17 :: post, b.data ≠ ev.data := by
    intro b hb heq
    simp only [List.map_append, List.map_cons, List.map_nil] at hptrs
    have hb' : b ∈ pre ∨ b = b17 ∨ b ∈ post := by simpa using hb
    have hmem : ∀ l : List mmb_t, b ∈ l → ev.data ∈ l.map mmb_t.data := fun l hl =>
      heq ▸ List.mem_map_of_mem mmb_t.data hl
    rw [List.nodup_append, List.nodup_append] at hptrs
    rcases hb' with h | h | h
    · exact hptrs.1.2.2 (hmem pre h) (by simp)
    · subst h
      exact hptrs.2.2 (show ev.data ∈ _ by simp) (by simp [heq])
    · have := hptrs.1.2.1
      rw [List.nodup_cons] at this
      exact this.1 (hmem post h)
  refine ⟨hcore.1, rfl, rfl, ?_, fun b hb => ⟨hnd2 b hb, hnd1 b hb⟩, fun sys => ?_⟩
  · intro b hb hne
    have hb' : b ∈ pre ∨ b = ev ∨ b ∈ post ∨ b = b17 := by simpa using hb
    simp only [List.mem_append, List.mem_cons]
    rcases hb' with h | h | h | h
    · exact Or.inl h
    · exact absurd h hne
    · exact Or.inr (Or.inr h)
    · exact Or.inr (Or.inl h)
  · exact m4ri_mmc_malloc_miss thr _ ev.size sys hnd1

/-- Witness for C2 (as amended): the seventeen blocks `blocks17` freed into the
initial cache; the block in slot 0 (pointer `1000`) is the one released. -/
theorem mmc_capacity_seventeen_witness :
    (freeAll M4RI_MMC_THRESHOLD Cache.init blocks17).trace
      = [Ext.free (blocks17.getD Cache.init.j { size := 0, data := 0 }).data] ∧
    (blocks17.getD Cache.init.j { size := 0, data := 0 }).data = 1000 :=
  ⟨(mmc_capacity_seventeen M4RI_MMC_THRESHOLD Cache.init blocks17 (by decide) (by decide)
      (by decide) (by decide) (by decide) (by decide)).2.1, by decide⟩

/-- C2 fails as stated. The seventeen blocks `blocks17z` have distinct pointers and pairwise
different sizes below the threshold, the first of size 0. Freed into the initial cache they
cause no release at all: the block of size 0 is put in slot 0, which still counts as empty,
and the second block overwrites it; pointer `1000` is neither released nor cached. -/
theorem mmc_capacity_seventeen_counterexample :
    blocks17z.length = 17 ∧ (blocks17z.map mmb_t.size).Nodup ∧
    (blocks17z.map mmb_t.data).Nodup ∧ (∀ b ∈ blocks17z, b.size < M4RI_MMC_THRESHOLD) ∧
    (freeAll M4RI_MMC_THRESHOLD Cache.init blocks17z).trace = [] ∧
    (freeAll M4RI_MMC_THRESHOLD Cache.init blocks17z).cache.mm = blocks17z.tail := by
  decide

/-! ## The block cache: cleanup, calloc, fatal error, threshold -/

/-- C3 (evaluation at the failing input). From the initial cache, `m4ri_mmc_free(4096, 8)`
then `m4ri_mmc_cleanup()` releases `4096` and leaves slot 0 with `size == 0` and the
non-null data pointer `4096`; a following `m4ri_mmc_malloc(0)` returns the released pointer
`4096` from that slot without calling the underlying allocator. -/
theorem mmc_cleanup_keeps_data :
    run M4RI_MMC_THRESHOLD Cache.init [Op.free 4096 8, Op.cleanup] =
      { mm := { size := 0, data := 4096 } :: List.replicate 15 { size := 0, data := 0 },
        j := 0 } ∧
    (m4ri_mmc_cleanup (m4ri_mmc_free M4RI_MMC_THRESHOLD Cache.init 4096 8).cache).trace
      = [Ext.free 4096] ∧
    m4ri_mmc_malloc M4RI_MMC_THRESHOLD
        (run M4RI_MMC_THRESHOLD Cache.init [Op.free 4096 8, Op.cleanup]) 0 300 =
      { cache := Cache.init, ret := some 4096, trace := [] } := by
  decide

theorem cleanupLoop_fst (mm : List mmb_t) :
    (cleanupLoop mm).1 = mm.map (fun b => { b with size := 0 }) := by
  induction mm with
  | nil => rfl
  | cons b rest ih => simp [cleanupLoop, ih]

theorem cleanupLoop_snd (mm : List mmb_t) :
    (cleanupLoop mm).2 = (mm.filter (fun b => b.size ≠ 0)).map (fun b => Ext.free b.data) := by
  induction mm with
  | nil => rfl
  | cons b rest ih =>
    by_cases hb : b.size = 0 <;> simp [cleanupLoop, ih, hb, m4ri_mm_free]

theorem cleanupLoop_empty (mm : List mmb_t) (h : ∀ b ∈ mm, b.size = 0) :
    cleanupLoop mm = (mm, []) := by
  induction mm with
  | nil => rfl
  | cons b rest ih =>
    have hb : b.size = 0 := h b (List.mem_cons_self _ _)
    have ih' := ih (fun x hx => h x (List.mem_cons_of_mem _ hx))
    obtain ⟨sz, d⟩ := b
    simp only at hb
    subst hb
    simp [cleanupLoop, ih']

/-- C4. For every cache state, `m4ri_mmc_cleanup` releases, in slot order, the data pointer
of exactly the slots with nonzero size, sets every slot's size to 0 (data pointers and
cursor stay as they are), and a second call right after releases nothing and leaves the
cache state unchanged. -/
theorem mmc_cleanup_idempotent (c : Cache) :
    (m4ri_mmc_cleanup c).trace =
      (c.mm.filter (fun b => b.size ≠ 0)).map (fun b => Ext.free b.data) ∧
    (m4ri_mmc_cleanup c).cache =
      { mm := c.mm.map (fun b => { size := 0, data := b.data }), j := c.j } ∧
    (∀ b ∈ (m4ri_mmc_cleanup c).cache.mm, b.size = 0) ∧
    m4ri_mmc_cleanup (m4ri_mmc_cleanup c).cache =
      { cache := (m4ri_mmc_cleanup c).cache, trace := [] } := by
  have hz : ∀ b ∈ (m4ri_mmc_cleanup c).cache.mm, b.size = 0 := by
    intro b hb
    simp only [m4ri_mmc_cleanup, cleanupLoop_fst, List.mem_map] at hb
    obtain ⟨a, _, rfl⟩ := hb
    rfl
  refine ⟨cleanupLoop_snd c.mm, ?_, hz, ?_⟩
  · simp [m4ri_mmc_cleanup, cleanupLoop_fst]
  · have h := cleanupLoop_empty _ hz
    unfold m4ri_mmc_cleanup at h ⊢
    simp only [h]

/-- C5. `m4ri_mmc_calloc(size, count)` returns the same block, leaves the same cache state
and makes the same external calls as `m4ri_mmc_malloc(size * count)` (product in `size_t`),
and when it returns `p`, every byte `p + k` with `k < size * count` is zero afterwards,
whatever the memory held before and whether `p` came from a slot or from the allocator. -/
theorem mmc_calloc_zeroed (thr : Nat) (c : Cache) (size count sys : Nat) (mem : Nat → Nat) :
    (m4ri_mmc_calloc thr c size count sys mem).1 =
      m4ri_mmc_malloc thr c ((size * count) % 2 ^ 64) sys ∧
    ∀ p, (m4ri_mmc_calloc thr c size count sys mem).1.ret = some p →
      ∀ k, k < (size * count) % 2 ^ 64 →
        (m4ri_mmc_calloc thr c size count sys mem).2 (p + k) = 0 := by
  have hcomm : (count * size) % 2 ^ 64 = (size * count) % 2 ^ 64 := by rw [Nat.mul_comm]
  unfold m4ri_mmc_calloc
  rw [hcomm]
  generalize (size * count) % 2 ^ 64 = n
  dsimp only
  cases hr : (m4ri_mmc_malloc thr c n sys).ret with
  | none => simp [hr]
  | some q =>
    refine ⟨rfl, ?_⟩
    intro p hp k hk
    have hpq : q = p := Option.some.inj (hr.symm.trans hp)
    subst hpq
    show memsetZero mem q n (q + k) = 0
    unfold memsetZero
    rw [if_pos ⟨Nat.le_add_right _ _, by omega⟩]

/-- Witness for C5: `m4ri_mmc_calloc(4, 4)` served from slot 0 of
`cacheOne`, on a memory holding `255` everywhere; byte `4096 + 3` is zero afterwards. -/
theorem mmc_calloc_zeroed_witness :
    (m4ri_mmc_calloc M4RI_MMC_THRESHOLD cacheOne 4 4 0 (fun _ => 255)).2 (4096 + 3) = 0 :=
  (mmc_calloc_zeroed M4RI_MMC_THRESHOLD cacheOne 4 4 0 (fun _ => 255)).2 4096
    (by decide) 3 (by decide)

theorem die_mem_mm_malloc (size sys : Nat) :
    Ext.die ∈ (m4ri_mm_malloc size sys).2 ↔ sys = 0 ∧ 0 < size := by
  unfold m4ri_mm_malloc
  split <;> simp_all

theorem cleanupLoop_no_die (mm : List mmb_t) : Ext.die ∉ (cleanupLoop mm).2 := by
  simp [cleanupLoop_snd]

/-- C6. `m4ri_mmc_malloc(size)` reaches `m4ri_die` if and only if the request is not served
from the cache (`ret` is `NULL` after the scan, i.e. the underlying allocator is called) and
the allocator answers `NULL` for a `size > 0`; it does not return exactly when it reaches
`m4ri_die`. A request served from the cache returns the slot's pointer, a miss with a
non-null answer returns the answer, a null answer for `size == 0` returns `NULL`; and
`m4ri_mmc_free` and `m4ri_mmc_cleanup` never reach `m4ri_die`. -/
theorem mmc_fatal_iff (thr : Nat) (c : Cache) (size sys p s : Nat) :
    (Ext.die ∈ (m4ri_mmc_malloc thr c size sys).trace ↔
      (mmcLookup thr c size).1 = 0 ∧ sys = 0 ∧ 0 < size) ∧
    ((mmcLookup thr c size).1 = 0 ↔ Ext.malloc size ∈ (m4ri_mmc_malloc thr c size sys).trace) ∧
    ((m4ri_mmc_malloc thr c size sys).ret = none ↔
      Ext.die ∈ (m4ri_mmc_malloc thr c size sys).trace) ∧
    ((mmcLookup thr c size).1 ≠ 0 →
      (m4ri_mmc_malloc thr c size sys).ret = some (mmcLookup thr c size).1 ∧
      (m4ri_mmc_malloc thr c size sys).trace = []) ∧
    ((mmcLookup thr c size).1 = 0 → sys ≠ 0 →
      (m4ri_mmc_malloc thr c size sys).ret = some sys) ∧
    ((mmcLookup thr c size).1 = 0 → sys = 0 → size = 0 →
      (m4ri_mmc_malloc thr c size sys).ret = some 0) ∧
    Ext.die ∉ (m4ri_mmc_free thr c p s).trace ∧
    Ext.die ∉ (m4ri_mmc_cleanup c).trace := by
  have hfree : Ext.die ∉ (m4ri_mmc_free thr c p s).trace := by
    unfold m4ri_mmc_free m4ri_mm_free
    split
    · split <;> simp
    · simp
  have hclean : Ext.die ∉ (m4ri_mmc_cleanup c).trace := cleanupLoop_no_die c.mm
  by_cases hret : (mmcLookup thr c size).1 = 0
  · by_cases hsys : sys = 0 ∧ size > 0
    · simp [m4ri_mmc_malloc, m4ri_mm_malloc, hret, hsys, hfree, hclean]
      omega
    · simp only [m4ri_mmc_malloc, m4ri_mm_malloc, hret, hsys, if_false, ne_eq,
        not_true_eq_false]
      refine ⟨by simp, by simp, by simp, by simp, by simp, ?_, hfree, hclean⟩
      intro _ h0 _
      rw [h0]
  · simp [m4ri_mmc_malloc, hret, hfree, hclean]

/-- Witness for C6: a request of 16 bytes on `cacheOne` is served from slot 0
and returns `4096` with no external call, although the allocator would answer `NULL`. -/
theorem mmc_fatal_iff_witness :
    (m4ri_mmc_malloc M4RI_MMC_THRESHOLD cacheOne 16 0).ret
      = some (mmcLookup M4RI_MMC_THRESHOLD cacheOne 16).1 ∧
    (m4ri_mmc_malloc M4RI_MMC_THRESHOLD cacheOne 16 0).trace = [] :=
  (mmc_fatal_iff M4RI_MMC_THRESHOLD cacheOne 16 0 0 0).2.2.2.1 (by decide)

/-- C7. `m4ri_mmc_free(p, size)` with `size >= M4RI_MMC_THRESHOLD` leaves every slot and the
cursor unchanged and makes exactly one external call, the release of `p`.
`m4ri_mmc_malloc(size)` with `size > M4RI_MMC_THRESHOLD` leaves every slot and the cursor
unchanged and hands the request to the underlying allocator: it returns the allocator's
answer when that is non-null (a null answer is fatal, the size being nonzero). -/
theorem mmc_large_bypass (thr : Nat) (c : Cache) (p size sys : Nat) :
    (thr ≤ size → m4ri_mmc_free thr c p size = { cache := c, trace := [Ext.free p] }) ∧
    (thr < size →
      m4ri_mmc_malloc thr c size sys =
        { cache := c, ret := (m4ri_mm_malloc size sys).1,
          trace := (m4ri_mm_malloc size sys).2 } ∧
      (m4ri_mm_malloc size sys).2.head? = some (Ext.malloc size) ∧
      (sys ≠ 0 → (m4ri_mmc_malloc thr c size sys).ret = some sys ∧
        (m4ri_mmc_malloc thr c size sys).trace = [Ext.malloc size])) := by
  constructor
  · intro h
    unfold m4ri_mmc_free
    rw [if_neg (Nat.not_lt.2 h)]
    rfl
  · intro h
    have hl : mmcLookup thr c size = (0, c.mm) := by
      unfold mmcLookup
      rw [if_neg (Nat.not_le.2 h)]
    refine ⟨by simp [m4ri_mmc_malloc, hl], ?_, ?_⟩
    · unfold m4ri_mm_malloc
      split <;> rfl
    · intro hsys
      simp [m4ri_mmc_malloc, hl, m4ri_mm_malloc, hsys]

/-- Witness for C7: a block of `M4RI_MMC_THRESHOLD + 1` bytes is released
directly, and a request of that size goes to the allocator, on `cacheOne`. -/
theorem mmc_large_bypass_witness :
    m4ri_mmc_free M4RI_MMC_THRESHOLD cacheOne 8192 (M4RI_MMC_THRESHOLD + 1)
      = { cache := cacheOne, trace := [Ext.free 8192] } ∧
    (m4ri_mmc_malloc M4RI_MMC_THRESHOLD cacheOne (M4RI_MMC_THRESHOLD + 1) 8192).ret
      = some 8192 :=
  ⟨(mmc_large_bypass M4RI_MMC_THRESHOLD cacheOne 8192 (M4RI_MMC_THRESHOLD + 1) 8192).1
      (by decide),
   (((mmc_large_bypass M4RI_MMC_THRESHOLD cacheOne 8192 (M4RI_MMC_THRESHOLD + 1) 8192).2
      (by decide)).2.2 (by decide)).1⟩

/-- C8 (evaluation at the failing input). `m4ri_mmc_free(4096, M4RI_MMC_THRESHOLD)` on the
initial cache, where every slot is empty, stores nothing: it releases `4096` to the
underlying allocator and leaves the cache as it was; the following
`m4ri_mmc_malloc(M4RI_MMC_THRESHOLD)` calls the underlying allocator and returns its
answer `8192`, not `4096`. -/
theorem mmc_free_at_threshold_not_cached :
    m4ri_mmc_free M4RI_MMC_THRESHOLD Cache.init 4096 M4RI_MMC_THRESHOLD
      = { cache := Cache.init, trace := [Ext.free 4096] } ∧
    m4ri_mmc_malloc M4RI_MMC_THRESHOLD
        (m4ri_mmc_free M4RI_MMC_THRESHOLD Cache.init 4096 M4RI_MMC_THRESHOLD).cache
        M4RI_MMC_THRESHOLD 8192
      = { cache := Cache.init, ret := some 8192,
          trace := [Ext.malloc M4RI_MMC_THRESHOLD] } := by
  decide

/-! ## Bit masks -/

/-- The number of low-order bits `LEFT_BITMASK(n)` sets: `64` for `n == 0`, else `n`. -/
theorem LEFT_BITMASK_eq (n : Int) (h0 : 0 ≤ n) (h64 : n ≤ 64) :
    LEFT_BITMASK n = 2 ^ (if n = 0 then 64 else n.toNat) - 1 := by
  interval_cases n <;> decide

/-- C9. For every `n` with `0 <= n <= 64`, `LEFT_BITMASK(n)` has exactly
`(n == 0 ? 64 : n)` set bits, namely the low-order bits `2^0 .. 2^(m-1)` for that number
`m`; it equals `2^n - 1` for `1 <= n <= 63`; `LEFT_BITMASK(0) == LEFT_BITMASK(64) == FFFF`;
and it never has zero bits set. -/
theorem LEFT_BITMASK_spec (n : Int) (h0 : 0 ≤ n) (h64 : n ≤ 64) :
    popcount (LEFT_BITMASK n) = (if n = 0 then 64 else n.toNat) ∧
    (∀ i : Nat, (LEFT_BITMASK n).testBit i = decide (i < (if n = 0 then 64 else n.toNat))) ∧
    (1 ≤ n → n ≤ 63 → LEFT_BITMASK n = 2 ^ n.toNat - 1) ∧
    LEFT_BITMASK 0 = FFFF ∧ LEFT_BITMASK 64 = FFFF ∧
    0 < popcount (LEFT_BITMASK n) := by
  have hpop : popcount (LEFT_BITMASK n) = (if n = 0 then 64 else n.toNat) := by
    interval_cases n <;> decide
  refine ⟨hpop, ?_, ?_, by decide, by decide, ?_⟩
  · intro i
    rw [LEFT_BITMASK_eq n h0 h64, Nat.testBit_two_pow_sub_one]
  · intro h1 h63
    rw [LEFT_BITMASK_eq n h0 h64, if_neg (by omega)]
  · rw [hpop]
    split <;> omega

/-- Witness for C9 at `n = 3`: three set bits, the mask is `7`. -/
theorem LEFT_BITMASK_spec_witness :
    popcount (LEFT_BITMASK 3) = 3 ∧ LEFT_BITMASK 3 = 2 ^ 3 - 1 :=
  ⟨(LEFT_BITMASK_spec 3 (by decide) (by decide)).1,
   (LEFT_BITMASK_spec 3 (by decide) (by decide)).2.2.1 (by decide) (by decide)⟩

theorem RIGHT_BITMASK_eq (n : Int) (h1 : 1 ≤ n) (h64 : n ≤ 64) :
    RIGHT_BITMASK n = 2 ^ 64 - 2 ^ (64 - n.toNat) := by
  interval_cases n <;> decide

/-- C10. For every `n` with `1 <= n <= 64`, `RIGHT_BITMASK(n)` has exactly `n` set bits and
they are the `n` highest-order bits, those of value `2^(64-n) .. 2^63`;
`RIGHT_BITMASK(64) == FFFF` and `RIGHT_BITMASK(1) == 2^63`. -/
theorem RIGHT_BITMASK_spec (n : Int) (h1 : 1 ≤ n) (h64 : n ≤ 64) :
    popcount (RIGHT_BITMASK n) = n.toNat ∧
    (∀ i : Nat, (RIGHT_BITMASK n).testBit i = decide (64 - n.toNat ≤ i ∧ i < 64)) ∧
    RIGHT_BITMASK n = 2 ^ 64 - 2 ^ (64 - n.toNat) ∧
    RIGHT_BITMASK 64 = FFFF ∧ RIGHT_BITMASK 1 = 2 ^ 63 := by
  refine ⟨by interval_cases n <;> decide, ?_, RIGHT_BITMASK_eq n h1 h64, by decide, by decide⟩
  intro i
  by_cases hi : i < 64
  · have hsmall : ∀ k : Nat, k < 64 →
        (RIGHT_BITMASK n).testBit k = decide (64 - n.toNat ≤ k ∧ k < 64) := by
      interval_cases n <;> decide
    exact hsmall i hi
  · have hlt : RIGHT_BITMASK n < 2 ^ i := by
      have hb : RIGHT_BITMASK n < 2 ^ 64 := by
        unfold RIGHT_BITMASK shl
        exact Nat.mod_lt _ (by decide)
      exact Nat.lt_of_lt_of_le hb (Nat.pow_le_pow_right (by decide) (by omega))
    rw [Nat.testBit_lt_two_pow hlt]
    simp [hi]

/-- Witness for C10 at `n = 2`: two set bits, bits 62 and 63. -/
theorem RIGHT_BITMASK_spec_witness :
    popcount (RIGHT_BITMASK 2) = 2 ∧ RIGHT_BITMASK 2 = 2 ^ 64 - 2 ^ (64 - 2) :=
  ⟨(RIGHT_BITMASK_spec 2 (by decide) (by decide)).1,
   (RIGHT_BITMASK_spec 2 (by decide) (by decide)).2.2.1⟩

/-! ## Bit-level lemmas -/

theorem shl_testBit (w : Nat) (k : Int) (i : Nat) :
    (shl w k).testBit i = (decide (i < 64) && (decide (k.toNat ≤ i) && w.testBit (i - k.toNat))) := by
  unfold shl
  rw [Nat.testBit_mod_two_pow, Nat.testBit_shiftLeft]

theorem shr_testBit (w : Nat) (k : Int) (i : Nat) :
    (shr w k).testBit i = w.testBit (k.toNat + i) := by
  unfold shr
  rw [Nat.testBit_shiftRight]

theorem shl_lt (w : Nat) (k : Int) : shl w k < 2 ^ 64 := Nat.mod_lt _ (by decide)

theorem FFFF_testBit (i : Nat) : FFFF.testBit i = decide (i < 64) := by
  unfold FFFF
  rw [Nat.testBit_two_pow_sub_one]

theorem popcount_run (w off n : Nat) (h : off + n ≤ 64)
    (hw : ∀ i, i < 64 → w.testBit i = decide (off ≤ i ∧ i < off + n)) : popcount w = n := by
  have h1 : ((List.range 64).filter (fun i => decide (off ≤ i ∧ i < off + n))).length
      = ((Finset.range 64).filter (fun i => off ≤ i ∧ i < off + n)).card := rfl
  have h2 : (Finset.range 64).filter (fun i => off ≤ i ∧ i < off + n)
      = Finset.Ico off (off + n) := by
    ext i
    simp
    omega
  have h3 : (List.range 64).filter (fun i => w.testBit i)
      = (List.range 64).filter (fun i => decide (off ≤ i ∧ i < off + n)) := by
    apply List.filter_congr
    intro i hi
    exact hw i (List.mem_range.1 hi)
  unfold popcount
  rw [h3, h1, h2, Nat.card_Ico]
  omega

theorem MIDDLE_BITMASK_testBit (n offset : Int) (ho0 : 0 ≤ offset) (ho : offset < 64)
    (hn1 : 1 ≤ n) (hn : n ≤ 64 - offset) (i : Nat) :
    (MIDDLE_BITMASK n offset).testBit i =
      decide (offset.toNat ≤ i ∧ i < offset.toNat + n.toNat) := by
  unfold MIDDLE_BITMASK
  rw [shl_testBit, LEFT_BITMASK_eq n (by omega) (by omega), if_neg (by omega),
    Nat.testBit_two_pow_sub_one]
  rw [Bool.eq_iff_iff]
  simp
  omega

theorem RIGHT_BITMASK_testBit (n : Int) (h1 : 1 ≤ n) (h64 : n ≤ 64) (i : Nat) :
    (RIGHT_BITMASK n).testBit i = decide (64 - n.toNat ≤ i ∧ i < 64) := by
  unfold RIGHT_BITMASK
  rw [shl_testBit, FFFF_testBit]
  have hk : (RADIX - n).toNat = 64 - n.toNat := by unfold RADIX; omega
  rw [hk, Bool.eq_iff_iff]
  simp
  omega

/-- C11. For every `offset` with `0 <= offset < 64` and every `n` with
`1 <= n <= 64 - offset`, `MIDDLE_BITMASK(n, offset)`, which is `LEFT_BITMASK(n) << offset`,
equals `LEFT_BITMASK(n + offset) & RIGHT_BITMASK(64 - offset)` and is a run of exactly `n`
set bits at the positions `offset .. offset + n - 1`; it never has zero bits set. -/
theorem MIDDLE_BITMASK_spec (n offset : Int) (ho0 : 0 ≤ offset) (ho : offset < 64)
    (hn1 : 1 ≤ n) (hn : n ≤ 64 - offset) :
    MIDDLE_BITMASK n offset = shl (LEFT_BITMASK n) offset ∧
    MIDDLE_BITMASK n offset = LEFT_BITMASK (n + offset) &&& RIGHT_BITMASK (64 - offset) ∧
    popcount (MIDDLE_BITMASK n offset) = n.toNat ∧
    (∀ i : Nat, (MIDDLE_BITMASK n offset).testBit i =
      decide (offset.toNat ≤ i ∧ i < offset.toNat + n.toNat)) ∧
    0 < popcount (MIDDLE_BITMASK n offset) := by
  have hpop : popcount (MIDDLE_BITMASK n offset) = n.toNat :=
    popcount_run _ offset.toNat n.toNat (by omega)
      (fun i _ => MIDDLE_BITMASK_testBit n offset ho0 ho hn1 hn i)
  refine ⟨rfl, ?_, hpop, MIDDLE_BITMASK_testBit n offset ho0 ho hn1 hn, by rw [hpop]; omega⟩
  apply Nat.eq_of_testBit_eq
  intro i
  rw [Nat.testBit_and, MIDDLE_BITMASK_testBit n offset ho0 ho hn1 hn,
    RIGHT_BITMASK_testBit (64 - offset) (by omega) (by omega),
    LEFT_BITMASK_eq (n + offset) (by omega) (by omega), if_neg (by omega),
    Nat.testBit_two_pow_sub_one, Bool.eq_iff_iff]
  simp
  omega

/-- Witness for C11 at `n = 3`, `offset = 2`: the mask is `28`, bits 2, 3 and 4. -/
theorem MIDDLE_BITMASK_spec_witness :
    MIDDLE_BITMASK 3 2 = LEFT_BITMASK (3 + 2) &&& RIGHT_BITMASK (64 - 2) ∧
    popcount (MIDDLE_BITMASK 3 2) = 3 :=
  ⟨(MIDDLE_BITMASK_spec 3 2 (by decide) (by decide) (by decide) (by decide)).2.1,
   (MIDDLE_BITMASK_spec 3 2 (by decide) (by decide) (by decide) (by decide)).2.2.1⟩

/-! ## Single-bit access -/

theorem shl_ONE_testBit (spot : Int) (h63 : spot ≤ 63) (i : Nat) :
    (shl ONE spot).testBit i = decide (i = spot.toNat) := by
  rw [shl_testBit, Bool.eq_iff_iff]
  unfold ONE
  simp [Nat.testBit_one_eq_true_iff_self_eq_zero]
  omega

theorem GET_BIT_eq (w : Nat) (spot : Int) :
    GET_BIT w spot = if w.testBit spot.toNat then 1 else 0 := by
  unfold GET_BIT shr ONE
  rw [Nat.and_one_is_mod, Nat.testBit_to_div_mod, Nat.shiftRight_eq_div_pow]
  rcases Nat.mod_two_eq_zero_or_one (w / 2 ^ spot.toNat) with h | h <;> rw [h] <;> decide

theorem WRITE_BIT_testBit (w : Nat) (spot value : Int) (h63 : spot ≤ 63) (i : Nat) :
    (WRITE_BIT w spot value).testBit i =
      if i = spot.toNat then (negw (CONVERT_TO_WORD value)).testBit i
      else (decide (i < 64) && w.testBit i) := by
  unfold WRITE_BIT notw
  rw [Nat.testBit_or, Nat.testBit_and, Nat.testBit_and, Nat.testBit_xor, FFFF_testBit,
    shl_ONE_testBit spot h63]
  by_cases h : i = spot.toNat
  · subst h
    have hi : spot.toNat < 64 := by omega
    simp [hi]
  · simp [h, Bool.and_comm]

theorem FLIP_BIT_testBit (w : Nat) (spot : Int) (h63 : spot ≤ 63) (i : Nat) :
    (FLIP_BIT w spot).testBit i = if i = spot.toNat then !w.testBit i else w.testBit i := by
  unfold FLIP_BIT
  rw [Nat.testBit_xor, shl_ONE_testBit spot h63]
  by_cases h : i = spot.toNat <;> simp [h]

/-! ## `swap_bits` -/

/-- One masked exchange step of `swap_bits`, bit by bit. -/
theorem swapStep_testBit (v m : Nat) (k : Int) (i : Nat) :
    ((shr v k &&& m) ||| shl (v &&& m) k).testBit i =
      ((v.testBit (k.toNat + i) && m.testBit i) ||
       (decide (i < 64) && (decide (k.toNat ≤ i) &&
         (v.testBit (i - k.toNat) && m.testBit (i - k.toNat))))) := by
  rw [Nat.testBit_or, Nat.testBit_and, shr_testBit, shl_testBit, Nat.testBit_and]

theorem mask1_testBit : ∀ i, i < 64 → (0x5555555555555555 : Nat).testBit i = decide (i % 2 < 1) := by
  decide

theorem mask2_testBit : ∀ i, i < 64 → (0x3333333333333333 : Nat).testBit i = decide (i % 4 < 2) := by
  decide

theorem mask4_testBit : ∀ i, i < 64 → (0x0F0F0F0F0F0F0F0F : Nat).testBit i = decide (i % 8 < 4) := by
  decide

theorem mask8_testBit : ∀ i, i < 64 → (0x00FF00FF00FF00FF : Nat).testBit i = decide (i % 16 < 8) := by
  decide

theorem mask16_testBit : ∀ i, i < 64 → (0x0000FFFF0000FFFF : Nat).testBit i = decide (i % 32 < 16) := by
  decide

/-- A masked exchange step moves bit `i + k` to `i` where the mask has bit `i`, and bit
`i - k` to `i` where it has not, provided the mask selects exactly one of `i`, `i - k`. -/
theorem swapStep_perm (v m k i : Nat) (hi : i < 64) (b : Bool) (hmi : m.testBit i = b)
    (hlow : b = true → ¬ (k ≤ i ∧ m.testBit (i - k) = true))
    (hhigh : b = false → k ≤ i ∧ m.testBit (i - k) = true) :
    ((shr v (k : Int) &&& m) ||| shl (v &&& m) (k : Int)).testBit i =
      v.testBit (if b = true then i + k else i - k) := by
  rw [swapStep_testBit, Int.toNat_ofNat, hmi]
  cases b with
  | true =>
    have h := hlow rfl
    by_cases hk : k ≤ i
    · have h2 : m.testBit (i - k) = false := by
        cases hm : m.testBit (i - k)
        · rfl
        · exact absurd ⟨hk, hm⟩ h
      simp [h2, Nat.add_comm]
    · simp [hk, Nat.add_comm]
  | false =>
    obtain ⟨hk, h2⟩ := hhigh rfl
    simp [hk, h2, hi]

theorem swapStep1 (v i : Nat) (hi : i < 64) :
    ((shr v 1 &&& 0x5555555555555555) ||| shl (v &&& 0x5555555555555555) 1).testBit i =
      v.testBit (if i % 2 < 1 then i + 1 else i - 1) := by
  have h := swapStep_perm v 0x5555555555555555 1 i hi (decide (i % 2 < 1)) (mask1_testBit i hi)
    (by intro hb ⟨hk, hm⟩
        rw [mask1_testBit (i - 1) (by omega)] at hm
        simp only [decide_eq_true_eq] at hb hm
        omega)
    (by intro hb
        rw [mask1_testBit (i - 1) (by omega)]
        simp only [decide_eq_false_iff_not, decide_eq_true_eq] at hb ⊢
        omega)
  simpa using h

theorem swapStep2 (v i : Nat) (hi : i < 64) :
    ((shr v 2 &&& 0x3333333333333333) ||| shl (v &&& 0x3333333333333333) 2).testBit i =
      v.testBit (if i % 4 < 2 then i + 2 else i - 2) := by
  have h := swapStep_perm v 0x3333333333333333 2 i hi (decide (i % 4 < 2)) (mask2_testBit i hi)
    (by intro hb ⟨hk, hm⟩
        rw [mask2_testBit (i - 2) (by omega)] at hm
        simp only [decide_eq_true_eq] at hb hm
        omega)
    (by intro hb
        rw [mask2_testBit (i - 2) (by omega)]
        simp only [decide_eq_false_iff_not, decide_eq_true_eq] at hb ⊢
        omega)
  simpa using h

theorem swapStep4 (v i : Nat) (hi : i < 64) :
    ((shr v 4 &&& 0x0F0F0F0F0F0F0F0F) ||| shl (v &&& 0x0F0F0F0F0F0F0F0F) 4).testBit i =
      v.testBit (if i % 8 < 4 then i + 4 else i - 4) := by
  have h := swapStep_perm v 0x0F0F0F0F0F0F0F0F 4 i hi (decide (i % 8 < 4)) (mask4_testBit i hi)
    (by intro hb ⟨hk, hm⟩
        rw [mask4_testBit (i - 4) (by omega)] at hm
        simp only [decide_eq_true_eq] at hb hm
        omega)
    (by intro hb
        rw [mask4_testBit (i - 4) (by omega)]
        simp only [decide_eq_false_iff_not, decide_eq_true_eq] at hb ⊢
        omega)
  simpa using h

theorem swapStep8 (v i : Nat) (hi : i < 64) :
    ((shr v 8 &&& 0x00FF00FF00FF00FF) ||| shl (v &&& 0x00FF00FF00FF00FF) 8).testBit i =
      v.testBit (if i % 16 < 8 then i + 8 else i - 8) := by
  have h := swapStep_perm v 0x00FF00FF00FF00FF 8 i hi (decide (i % 16 < 8)) (mask8_testBit i hi)
    (by intro hb ⟨hk, hm⟩
        rw [mask8_testBit (i - 8) (by omega)] at hm
        simp only [decide_eq_true_eq] at hb hm
        omega)
    (by intro hb
        rw [mask8_testBit (i - 8) (by omega)]
        simp only [decide_eq_false_iff_not, decide_eq_true_eq] at hb ⊢
        omega)
  simpa using h

theorem swapStep16 (v i : Nat) (hi : i < 64) :
    ((shr v 16 &&& 0x0000FFFF0000FFFF) ||| shl (v &&& 0x0000FFFF0000FFFF) 16).testBit i =
      v.testBit (if i % 32 < 16 then i + 16 else i - 16) := by
  have h := swapStep_perm v 0x0000FFFF0000FFFF 16 i hi (decide (i % 32 < 16))
    (mask16_testBit i hi)
    (by intro hb ⟨hk, hm⟩
        rw [mask16_testBit (i - 16) (by omega)] at hm
        simp only [decide_eq_true_eq] at hb hm
        omega)
    (by intro hb
        rw [mask16_testBit (i - 16) (by omega)]
        simp only [decide_eq_false_iff_not, decide_eq_true_eq] at hb ⊢
        omega)
  simpa using h

/-- The last step of `swap_bits` exchanges the two halves of a word. -/
theorem swapStep32 (v i : Nat) (hv : v < 2 ^ 64) (hi : i < 64) :
    (shr v 32 ||| shl v 32).testBit i = v.testBit (if i < 32 then i + 32 else i - 32) := by
  rw [Nat.testBit_or, shr_testBit, shl_testBit]
  have h32 : (32 : Int).toNat = 32 := rfl
  rw [h32]
  by_cases h : i < 32
  · have hk : ¬ 32 ≤ i := by omega
    simp [h, hk, Nat.add_comm]
  · have hk : 32 ≤ i := by omega
    have hhigh : v.testBit (32 + i) = false :=
      Nat.testBit_lt_two_pow (Nat.lt_of_lt_of_le hv (Nat.pow_le_pow_right (by decide) (by omega)))
    simp [h, hk, hhigh, hi]

theorem swapStep_lt (v m : Nat) (k : Int) (hm : m < 2 ^ 64) :
    (shr v k &&& m) ||| shl (v &&& m) k < 2 ^ 64 :=
  Nat.or_lt_two_pow (Nat.and_lt_two_pow _ hm) (shl_lt _ _)

theorem swap_index : ∀ i, i < 64 →
    (let i5 := if i < 32 then i + 32 else i - 32
     let i4 := if i5 % 32 < 16 then i5 + 16 else i5 - 16
     let i3 := if i4 % 16 < 8 then i4 + 8 else i4 - 8
     let i2 := if i3 % 8 < 4 then i3 + 4 else i3 - 4
     let i1 := if i2 % 4 < 2 then i2 + 2 else i2 - 2
     (if i1 % 2 < 1 then i1 + 1 else i1 - 1)) = 63 - i := by
  decide

theorem swap_bits_testBit (v i : Nat) (hi : i < 64) :
    (swap_bits v).testBit i = v.testBit (63 - i) := by
  have key := swap_index i hi
  dsimp only at key
  unfold swap_bits
  dsimp only
  rw [swapStep32 _ i (swapStep_lt _ _ _ (by decide)) hi]
  set i5 := (if i < 32 then i + 32 else i - 32) with hi5
  have h5 : i5 < 64 := by rw [hi5]; split <;> omega
  rw [swapStep16 _ i5 h5]
  set i4 := (if i5 % 32 < 16 then i5 + 16 else i5 - 16) with hi4
  have h4 : i4 < 64 := by rw [hi4]; split <;> omega
  rw [swapStep8 _ i4 h4]
  set i3 := (if i4 % 16 < 8 then i4 + 8 else i4 - 8) with hi3
  have h3 : i3 < 64 := by rw [hi3]; split <;> omega
  rw [swapStep4 _ i3 h3]
  set i2 := (if i3 % 8 < 4 then i3 + 4 else i3 - 4) with hi2
  have h2 : i2 < 64 := by rw [hi2]; split <;> omega
  rw [swapStep2 _ i2 h2]
  set i1 := (if i2 % 4 < 2 then i2 + 2 else i2 - 2) with hi1
  have h1 : i1 < 64 := by rw [hi1]; split <;> omega
  rw [swapStep1 _ i1 h1, key]

theorem swap_bits_lt (v : Nat) : swap_bits v < 2 ^ 64 := by
  unfold swap_bits
  dsimp only
  apply Nat.or_lt_two_pow
  · unfold shr
    rw [Nat.shiftRight_eq_div_pow]
    exact Nat.lt_of_le_of_lt (Nat.div_le_self _ _) (swapStep_lt _ _ _ (by decide))
  · exact shl_lt _ _

/-- C12. The function `swap_bits` reverses the bit order of a 64-bit word: for every word
`v` and every `i` with `0 <= i < 64`, bit `i` of `swap_bits(v)` equals bit `63 - i` of `v`
(as a bit of the number, and as read by `GET_BIT`). -/
theorem swap_bits_reverses (v i : Nat) (hi : i < 64) :
    (swap_bits v).testBit i = v.testBit (63 - i) ∧
    GET_BIT (swap_bits v) (i : Int) = GET_BIT v (63 - (i : Int)) := by
  refine ⟨swap_bits_testBit v i hi, ?_⟩
  have h1 : ((i : Int)).toNat = i := Int.toNat_ofNat i
  have h2 : (63 - (i : Int)).toNat = 63 - i := by omega
  rw [GET_BIT_eq, GET_BIT_eq, h1, h2, swap_bits_testBit v i hi]

/-- Witness for C12: bit 0 of `swap_bits(2^63 + 1)` at `i = 0`. -/
theorem swap_bits_reverses_witness :
    (swap_bits (2 ^ 63 + 1)).testBit 0 = (2 ^ 63 + 1).testBit (63 - 0) :=
  (swap_bits_reverses (2 ^ 63 + 1) 0 (by decide)).1

/-- C13. The function `swap_bits` is self-inverse on 64-bit words:
`swap_bits(swap_bits(w)) == w` for every word `w`, and in particular `swap_bits(0) == 0`
and `swap_bits(FFFF) == FFFF`. -/
theorem swap_bits_involutive (w : Nat) (hw : w < 2 ^ 64) :
    swap_bits (swap_bits w) = w ∧ swap_bits 0 = 0 ∧ swap_bits FFFF = FFFF := by
  refine ⟨?_, by decide, by decide⟩
  apply Nat.eq_of_testBit_eq
  intro i
  by_cases hi : i < 64
  · rw [swap_bits_testBit _ i hi, swap_bits_testBit _ (63 - i) (by omega)]
    congr 1
    omega
  · have hp : (2 : Nat) ^ 64 ≤ 2 ^ i := Nat.pow_le_pow_right (by decide) (by omega)
    rw [Nat.testBit_lt_two_pow (Nat.lt_of_lt_of_le (swap_bits_lt _) hp),
      Nat.testBit_lt_two_pow (Nat.lt_of_lt_of_le hw hp)]

/-- Witness for C13 at `w = 0x123456789ABCDEF0`. -/
theorem swap_bits_involutive_witness :
    swap_bits (swap_bits 0x123456789ABCDEF0) = 0x123456789ABCDEF0 :=
  (swap_bits_involutive 0x123456789ABCDEF0 (by decide)).1

/-! ## `lesser_LSB` -/

theorem lowestSetBit_zero (n : Nat) : lowestSetBit n 0 = n := by
  induction n with
  | zero => rfl
  | succ n ih => simp [lowestSetBit, ih]

theorem lowestSetBit_le (n w : Nat) : lowestSetBit n w ≤ n := by
  induction n generalizing w with
  | zero => simp [lowestSetBit]
  | succ n ih =>
    unfold lowestSetBit
    split
    · omega
    · have := ih (w / 2); omega

theorem lowestSetBit_lt (n w : Nat) (hw : w < 2 ^ n) (h0 : w ≠ 0) : lowestSetBit n w < n := by
  induction n generalizing w with
  | zero => simp at hw; exact absurd hw h0
  | succ n ih =>
    unfold lowestSetBit
    split
    · omega
    · have h2 : w / 2 < 2 ^ n := by rw [Nat.pow_succ] at hw; omega
      have := ih (w / 2) h2 (by omega)
      omega

/-- The index `lowestSetBit n w` is the position of a set bit and no lower bit is set. -/
theorem lowestSetBit_testBit (n w : Nat) (hw : w < 2 ^ n) (h0 : w ≠ 0) :
    w.testBit (lowestSetBit n w) = true ∧ ∀ i, i < lowestSetBit n w → w.testBit i = false := by
  induction n generalizing w with
  | zero => simp at hw; exact absurd hw h0
  | succ n ih =>
    unfold lowestSetBit
    split
    · rename_i h1
      refine ⟨by rw [Nat.testBit_zero]; simpa using h1, ?_⟩
      intro i hi
      omega
    · rename_i h1
      have h2 : w / 2 < 2 ^ n := by rw [Nat.pow_succ] at hw; omega
      obtain ⟨ha, hb⟩ := ih (w / 2) h2 (by omega)
      refine ⟨by rw [Nat.testBit_succ]; exact ha, ?_⟩
      intro i hi
      cases i with
      | zero => rw [Nat.testBit_zero]; simpa using h1
      | succ i => rw [Nat.testBit_succ]; exact hb i (by omega)

theorem eq_zero_iff_half (z : Nat) : z = 0 ↔ z / 2 = 0 ∧ z.testBit 0 = false := by
  rw [Nat.testBit_zero]
  simp only [decide_eq_false_iff_not]
  omega

theorem pred_mod_odd (a P : Nat) (hP : 0 < P) (ha : a < 2 * P) (hodd : a % 2 = 1) :
    (a + 2 * P - 1) % (2 * P) = a - 1 := by
  have h : a + 2 * P - 1 = (a - 1) + 2 * P := by omega
  rw [h, Nat.add_mod_right, Nat.mod_eq_of_lt (by omega)]

theorem pred_mod_even (a P : Nat) (hP : 0 < P) (ha : a < 2 * P) (heven : a % 2 = 0) :
    (a + 2 * P - 1) % (2 * P) = 2 * ((a / 2 + P - 1) % P) + 1 := by
  by_cases h0 : a = 0
  · subst h0
    have h1 : (0 / 2 + P - 1) % P = P - 1 := by
      rw [Nat.zero_div, Nat.zero_add]; exact Nat.mod_eq_of_lt (by omega)
    rw [h1, Nat.zero_add, Nat.mod_eq_of_lt (by omega)]
    omega
  · have h : a + 2 * P - 1 = (a - 1) + 2 * P := by omega
    have h1 : a / 2 + P - 1 = (a / 2 - 1) + P := by omega
    rw [h, Nat.add_mod_right, Nat.mod_eq_of_lt (by omega), h1, Nat.add_mod_right,
      Nat.mod_eq_of_lt (by omega)]
    omega

/-- The core of `lesser_LSB` at any width `n`: `((a - 1) ^ a) & b` is zero exactly when the
lowest set bit of `a` lies strictly below the lowest set bit of `b` (for `b` nonzero). -/
theorem lsb_core (n : Nat) : ∀ a b : Nat, a < 2 ^ n → b < 2 ^ n → b ≠ 0 →
    ((((a + 2 ^ n - 1) % 2 ^ n) ^^^ a) &&& b = 0 ↔ lowestSetBit n a < lowestSetBit n b) := by
  induction n with
  | zero =>
    intro a b _ hb hb0
    simp at hb
    exact absurd hb hb0
  | succ n ih =>
    intro a b ha hb hb0
    have hP : 0 < 2 ^ n := Nat.two_pow_pos n
    rw [Nat.pow_succ, Nat.mul_comm] at ha hb ⊢
    rw [eq_zero_iff_half, Nat.and_div_two, Nat.xor_div_two, Nat.testBit_and, Nat.testBit_xor]
    rcases Nat.mod_two_eq_zero_or_one a with hpar | hpar
    · -- `a` even
      have hx := pred_mod_even a (2 ^ n) hP ha hpar
      rw [hx]
      have hx2 : (2 * ((a / 2 + 2 ^ n - 1) % 2 ^ n) + 1) / 2 = (a / 2 + 2 ^ n - 1) % 2 ^ n := by
        omega
      have hx0 : (2 * ((a / 2 + 2 ^ n - 1) % 2 ^ n) + 1).testBit 0 = true := by
        rw [Nat.testBit_zero]; simp; omega
      have ha0 : a.testBit 0 = false := by rw [Nat.testBit_zero]; simp; omega
      rw [hx2, hx0, ha0]
      have hla : lowestSetBit (n + 1) a = lowestSetBit n (a / 2) + 1 := by
        rw [lowestSetBit, if_neg (by omega)]
      rw [hla]
      rcases Nat.mod_two_eq_zero_or_one b with hb2 | hb2
      · have hbt : b.testBit 0 = false := by rw [Nat.testBit_zero]; simp; omega
        have hlb : lowestSetBit (n + 1) b = lowestSetBit n (b / 2) + 1 := by
          rw [lowestSetBit, if_neg (by omega)]
        rw [hbt, hlb, ih (a / 2) (b / 2) (by omega) (by omega) (by omega)]
        simp
      · have hbt : b.testBit 0 = true := by rw [Nat.testBit_zero]; simp; omega
        have hlb : lowestSetBit (n + 1) b = 0 := by
          rw [lowestSetBit, if_pos hb2]
        rw [hbt, hlb]
        simp
    · -- `a` odd
      have hx := pred_mod_odd a (2 ^ n) hP ha hpar
      rw [hx]
      have hx2 : (a - 1) / 2 = a / 2 := by omega
      have hx0 : (a - 1).testBit 0 = false := by rw [Nat.testBit_zero]; simp; omega
      have ha0 : a.testBit 0 = true := by rw [Nat.testBit_zero]; simp; omega
      rw [hx2, hx0, ha0, Nat.xor_self, Nat.zero_and]
      have hla : lowestSetBit (n + 1) a = 0 := by
        rw [lowestSetBit, if_pos hpar]
      rw [hla]
      rcases Nat.mod_two_eq_zero_or_one b with hb2 | hb2
      · have hbt : b.testBit 0 = false := by rw [Nat.testBit_zero]; simp; omega
        have hlb : lowestSetBit (n + 1) b = lowestSetBit n (b / 2) + 1 := by
          rw [lowestSetBit, if_neg (by omega)]
        rw [hbt, hlb]
        simp
      · have hbt : b.testBit 0 = true := by rw [Nat.testBit_zero]; simp; omega
        have hlb : lowestSetBit (n + 1) b = 0 := by
          rw [lowestSetBit, if_pos hb2]
        rw [hbt, hlb]
        simp

theorem lesser_LSB_eq (a b : Nat) (ha : a < 2 ^ 64) (hb : b < 2 ^ 64) :
    lesser_LSB a b = if LSBI a < LSBI b then 1 else 0 := by
  unfold lesser_LSB LSBI subw
  dsimp only
  by_cases hb0 : b = 0
  · subst hb0
    rw [lowestSetBit_zero]
    by_cases ha0 : a = 0
    · subst ha0
      rw [lowestSetBit_zero]
      simp
    · have := lowestSetBit_lt 64 a ha ha0
      simp [ha0, this]
  · have h := lsb_core 64 a b ha hb hb0
    simp only [ne_eq, hb0, not_false_eq_true, if_true]
    by_cases hz : (((a + 2 ^ 64 - 1) % 2 ^ 64) ^^^ a) &&& b = 0
    · rw [if_pos hz, if_pos (h.1 hz)]
    · rw [if_neg hz, if_neg (fun hlt => hz (h.2 hlt))]

/-- C14. For all 64-bit words `a` and `b`, `lesser_LSB(a, b)` returns 1 if
`LSBI(a) < LSBI(b)` and 0 otherwise, where `LSBI(w)` is the index of the lowest set bit of
`w` and `LSBI(0) = 64`; hence `lesser_LSB(0, b) == 0` for every `b`,
`lesser_LSB(a, 0) == 1` for every nonzero `a`, `lesser_LSB(1, 2) == 1` and
`lesser_LSB(2, 1) == 0`. -/
theorem lesser_LSB_spec (a b : Nat) (ha : a < 2 ^ 64) (hb : b < 2 ^ 64) :
    lesser_LSB a b = (if LSBI a < LSBI b then 1 else 0) ∧
    lesser_LSB 0 b = 0 ∧
    (a ≠ 0 → lesser_LSB a 0 = 1) ∧
    lesser_LSB 1 2 = 1 ∧ lesser_LSB 2 1 = 0 ∧
    LSBI 0 = 64 ∧
    (a ≠ 0 → LSBI a < 64 ∧ a.testBit (LSBI a) = true ∧
      ∀ i, i < LSBI a → a.testBit i = false) := by
  have hz : LSBI 0 = 64 := lowestSetBit_zero 64
  refine ⟨lesser_LSB_eq a b ha hb, ?_, ?_, by decide, by decide, hz, ?_⟩
  · rw [lesser_LSB_eq 0 b (by decide) hb, hz, if_neg]
    have := lowestSetBit_le 64 b
    unfold LSBI
    omega
  · intro ha0
    have hlt : LSBI a < 64 := lowestSetBit_lt 64 a ha ha0
    rw [lesser_LSB_eq a 0 ha (by decide), hz, if_pos hlt]
  · intro ha0
    exact ⟨lowestSetBit_lt 64 a ha ha0, lowestSetBit_testBit 64 a ha ha0⟩

/-- Witness for C14 at `a = 12`, `b = 8`: lowest set bits 2 and 3. -/
theorem lesser_LSB_spec_witness :
    lesser_LSB 12 8 = (if LSBI 12 < LSBI 8 then 1 else 0) ∧ LSBI 12 < 64 :=
  ⟨(lesser_LSB_spec 12 8 (by decide) (by decide)).1,
   ((lesser_LSB_spec 12 8 (by decide) (by decide)).2.2.2.2.2.2 (by decide)).1⟩

/-! ## Reading, writing and flipping one bit -/

/-- C15. For every word `w` and every `spot` with `0 <= spot <= 63`:
`GET_BIT(WRITE_BIT(w, spot, 1), spot) == 1`, `GET_BIT(WRITE_BIT(w, spot, 0), spot) == 0`,
at every other position `t` in `[0, 63]` `GET_BIT` of the written word equals
`GET_BIT(w, t)`, and `GET_BIT` only ever returns 0 or 1. -/
theorem GET_WRITE_BIT (w : Nat) (spot : Int) (h0 : 0 ≤ spot) (h63 : spot ≤ 63) :
    GET_BIT (WRITE_BIT w spot 1) spot = 1 ∧
    GET_BIT (WRITE_BIT w spot 0) spot = 0 ∧
    (∀ (value t : Int), 0 ≤ t → t ≤ 63 → t ≠ spot →
      GET_BIT (WRITE_BIT w spot value) t = GET_BIT w t) ∧
    (∀ (x : Nat) (t : Int), GET_BIT x t = 0 ∨ GET_BIT x t = 1) := by
  have hs : spot.toNat < 64 := by omega
  have h1 : (negw (CONVERT_TO_WORD 1)).testBit spot.toNat = true := by
    rw [show negw (CONVERT_TO_WORD 1) = FFFF by decide, FFFF_testBit]
    simpa using hs
  have h2 : (negw (CONVERT_TO_WORD 0)).testBit spot.toNat = false := by
    rw [show negw (CONVERT_TO_WORD 0) = 0 by decide]
    simp
  refine ⟨?_, ?_, ?_, ?_⟩
  · rw [GET_BIT_eq, WRITE_BIT_testBit w spot 1 h63, if_pos rfl, h1]
    rfl
  · rw [GET_BIT_eq, WRITE_BIT_testBit w spot 0 h63, if_pos rfl, h2]
    rfl
  · intro value t ht0 ht63 hne
    have hne' : t.toNat ≠ spot.toNat := by omega
    have ht : t.toNat < 64 := by omega
    rw [GET_BIT_eq, GET_BIT_eq, WRITE_BIT_testBit w spot value h63, if_neg hne']
    simp [ht]
  · intro x t
    rw [GET_BIT_eq]
    split <;> simp

/-- Witness for C15 at `w = 5`, `spot = 1`. -/
theorem GET_WRITE_BIT_witness :
    GET_BIT (WRITE_BIT 5 1 1) 1 = 1 ∧ GET_BIT (WRITE_BIT 5 1 0) 1 = 0 :=
  ⟨(GET_WRITE_BIT 5 1 (by decide) (by decide)).1,
   (GET_WRITE_BIT 5 1 (by decide) (by decide)).2.1⟩

/-- C16 fails as stated. With `w = 0`, `spot = 0` and the nonzero `value = 2`,
`WRITE_BIT` yields `0` (bit 0 cleared), whereas `WRITE_BIT(0, 0, 1)` yields `1`: the
negation of `2` as a word, `0xFFFFFFFFFFFFFFFE`, has bit 0 clear. -/
theorem WRITE_BIT_value_counterexample :
    WRITE_BIT 0 0 2 = 0 ∧ WRITE_BIT 0 0 1 = 1 ∧ WRITE_BIT 1 0 2 = 0 ∧
    negw (CONVERT_TO_WORD 2) = 0xFFFFFFFFFFFFFFFE := by
  decide

/-- C16 (as amended). The macro `WRITE_BIT` writes bit `spot` of the word `-value`: for
every word `w`, every `spot` with `0 <= spot <= 63` and every `value`,
`WRITE_BIT(w, spot, value)` is the same word as `WRITE_BIT(w, spot, 1)` when bit `spot` of
the negation of `value` as a 64-bit word is set, and the same word as
`WRITE_BIT(w, spot, 0)` when it is clear; `WRITE_BIT(w, spot, 1)` has bit `spot` set,
`WRITE_BIT(w, spot, 0)` has it clear, and all other bits of `w` are unchanged. -/
theorem WRITE_BIT_value (w : Nat) (spot value : Int) (h0 : 0 ≤ spot) (h63 : spot ≤ 63) :
    WRITE_BIT w spot value =
      (if (negw (CONVERT_TO_WORD value)).testBit spot.toNat then WRITE_BIT w spot 1
       else WRITE_BIT w spot 0) ∧
    (WRITE_BIT w spot 1).testBit spot.toNat = true ∧
    (WRITE_BIT w spot 0).testBit spot.toNat = false ∧
    (∀ i, i < 64 → i ≠ spot.toNat → (WRITE_BIT w spot value).testBit i = w.testBit i) ∧
    WRITE_BIT w spot value < 2 ^ 64 := by
  have hs : spot.toNat < 64 := by omega
  have h1 : (negw (CONVERT_TO_WORD 1)).testBit spot.toNat = true := by
    rw [show negw (CONVERT_TO_WORD 1) = FFFF by decide, FFFF_testBit]
    simpa using hs
  have h2 : (negw (CONVERT_TO_WORD 0)).testBit spot.toNat = false := by
    rw [show negw (CONVERT_TO_WORD 0) = 0 by decide]
    simp
  refine ⟨?_, ?_, ?_, ?_, ?_⟩
  · apply Nat.eq_of_testBit_eq
    intro i
    by_cases hb : (negw (CONVERT_TO_WORD value)).testBit spot.toNat = true
    · rw [if_pos hb, WRITE_BIT_testBit w spot value h63, WRITE_BIT_testBit w spot 1 h63]
      by_cases hi : i = spot.toNat
      · rw [if_pos hi, if_pos hi, hi, hb, h1]
      · rw [if_neg hi, if_neg hi]
    · rw [if_neg hb, WRITE_BIT_testBit w spot value h63, WRITE_BIT_testBit w spot 0 h63]
      by_cases hi : i = spot.toNat
      · rw [if_pos hi, if_pos hi, hi, h2]
        simpa using hb
      · rw [if_neg hi, if_neg hi]
  · rw [WRITE_BIT_testBit w spot 1 h63, if_pos rfl, h1]
  · rw [WRITE_BIT_testBit w spot 0 h63, if_pos rfl, h2]
  · intro i hi hne
    rw [WRITE_BIT_testBit w spot value h63, if_neg hne]
    simp [hi]
  · unfold WRITE_BIT
    apply Nat.or_lt_two_pow
    · apply Nat.and_lt_two_pow
      unfold notw
      exact Nat.xor_lt_two_pow (by decide) (Nat.mod_lt _ (by decide))
    · apply Nat.and_lt_two_pow
      exact Nat.mod_lt _ (by decide)

/-- Witness for C16 (as amended): `value = 2` at `spot = 1` sets the bit, `5` becomes `7`. -/
theorem WRITE_BIT_value_witness :
    WRITE_BIT 5 1 2 =
      (if (negw (CONVERT_TO_WORD 2)).testBit (1 : Int).toNat then WRITE_BIT 5 1 1
       else WRITE_BIT 5 1 0) ∧
    (WRITE_BIT 5 1 1).testBit (1 : Int).toNat = true :=
  ⟨(WRITE_BIT_value 5 1 2 (by decide) (by decide)).1,
   (WRITE_BIT_value 5 1 2 (by decide) (by decide)).2.1⟩

/-- C17. For every word `w` and every `spot` with `0 <= spot <= 63`, `FLIP_BIT` changes
exactly bit `spot` of `w`: `GET_BIT` at `spot` is inverted and every other bit is
unchanged; applying `FLIP_BIT` twice at the same spot restores the original word. -/
theorem FLIP_BIT_spec (w : Nat) (spot : Int) (h0 : 0 ≤ spot) (h63 : spot ≤ 63) :
    GET_BIT (FLIP_BIT w spot) spot = 1 - GET_BIT w spot ∧
    (∀ t : Int, 0 ≤ t → t ≠ spot → GET_BIT (FLIP_BIT w spot) t = GET_BIT w t) ∧
    (∀ i : Nat, (FLIP_BIT w spot).testBit i =
      if i = spot.toNat then !w.testBit i else w.testBit i) ∧
    FLIP_BIT (FLIP_BIT w spot) spot = w := by
  refine ⟨?_, ?_, FLIP_BIT_testBit w spot h63, ?_⟩
  · rw [GET_BIT_eq, GET_BIT_eq, FLIP_BIT_testBit w spot h63, if_pos rfl]
    cases w.testBit spot.toNat <;> rfl
  · intro t ht hne
    have hne' : t.toNat ≠ spot.toNat := by omega
    rw [GET_BIT_eq, GET_BIT_eq, FLIP_BIT_testBit w spot h63, if_neg hne']
  · unfold FLIP_BIT
    exact Nat.xor_cancel_right _ _

/-- Witness for C17 at `w = 5`, `spot = 0`. -/
theorem FLIP_BIT_spec_witness :
    GET_BIT (FLIP_BIT 5 0) 0 = 1 - GET_BIT 5 0 ∧ FLIP_BIT (FLIP_BIT 5 0) 0 = 5 :=
  ⟨(FLIP_BIT_spec 5 0 (by decide) (by decide)).1,
   (FLIP_BIT_spec 5 0 (by decide) (by decide)).2.2.2⟩

/-! ## The block cache: placement, lookup and the reachable states -/

theorem mallocScan_hit (s : Nat) (mm : List mmb_t) (k : Nat) (hk : k < mm.length)
    (hsz : (mm.getD k { size := 0, data := 0 }).size = s)
    (hlow : ∀ i, i < k → (mm.getD i { size := 0, data := 0 }).size ≠ s) :
    mallocScan s mm =
      ((mm.getD k { size := 0, data := 0 }).data, mm.set k { size := 0, data := 0 }) := by
  induction mm generalizing k with
  | nil => simp at hk
  | cons b rest ih =>
    cases k with
    | zero =>
      have hb : b.size = s := by simpa using hsz
      simp [mallocScan, hb]
    | succ k =>
      have hb : b.size ≠ s := by simpa using hlow 0 (Nat.succ_pos k)
      have ih' := ih k (by simpa using hk) (by simpa using hsz)
        (fun i hi => by simpa using hlow (i + 1) (Nat.succ_lt_succ hi))
      simp [mallocScan, hb, ih']

theorem mallocScan_length (s : Nat) (mm : List mmb_t) :
    (mallocScan s mm).2.length = mm.length := by
  induction mm with
  | nil => rfl
  | cons b rest ih =>
    unfold mallocScan
    split <;> simp [ih]

theorem mallocScan_sizes (s thr : Nat) (hthr : 0 < thr) (mm : List mmb_t)
    (h : ∀ b ∈ mm, b.size < thr) : ∀ b ∈ (mallocScan s mm).2, b.size < thr := by
  induction mm with
  | nil => simp [mallocScan]
  | cons b rest ih =>
    have hb := h b (List.mem_cons_self _ _)
    have ih' := ih (fun x hx => h x (List.mem_cons_of_mem _ hx))
    unfold mallocScan
    split
    · intro x hx
      rcases List.mem_cons.1 hx with rfl | hx
      · exact hthr
      · exact h x (List.mem_cons_of_mem _ hx)
    · intro x hx
      rcases List.mem_cons.1 hx with rfl | hx
      · exact hb
      · exact ih' x hx

/-- The first slot with `size == 0`, when there is one: its index, that it is empty, and
that no slot in front of it is. -/
theorem firstEmpty_spec (mm : List mmb_t) (h : ∃ b ∈ mm, b.size = 0) :
    mm.findIdx (fun b => b.size == 0) < mm.length ∧
    (mm.getD (mm.findIdx (fun b => b.size == 0)) { size := 0, data := 0 }).size = 0 ∧
    ∀ i, i < mm.findIdx (fun b => b.size == 0) →
      (mm.getD i { size := 0, data := 0 }).size ≠ 0 := by
  have hlt : mm.findIdx (fun b => b.size == 0) < mm.length := by
    apply List.findIdx_lt_length_of_exists
    obtain ⟨b, hb, hb0⟩ := h
    exact ⟨b, hb, by simpa using hb0⟩
  refine ⟨hlt, ?_, ?_⟩
  · have h1 := List.findIdx_getElem (w := hlt)
    rw [List.getD_eq_getElem?_getD, List.getElem?_eq_getElem hlt]
    simpa using h1
  · intro i hi
    have hi' : i < mm.length := Nat.lt_trans hi hlt
    have h1 := List.not_of_lt_findIdx hi
    rw [List.getD_eq_getElem?_getD, List.getElem?_eq_getElem hi']
    simpa using h1

theorem getD_set_frame (mm : List mmb_t) (k : Nat) (x : mmb_t) (hk : k < mm.length) :
    (mm.set k x).getD k { size := 0, data := 0 } = x ∧
    ∀ i, i ≠ k → (mm.set k x).getD i { size := 0, data := 0 }
      = mm.getD i { size := 0, data := 0 } := by
  constructor
  · simp [List.getD_eq_getElem?_getD, List.getElem?_set, hk]
  · intro i hi
    simp [List.getD_eq_getElem?_getD, List.getElem?_set, Ne.symm hi]

/-- C18. For `s` below the threshold, `m4ri_mmc_free(p, s)` on a cache state of the
program: if some slot has `size == 0`, the lowest-index such slot `k` becomes `(s, p)`,
nothing is released and the cursor is unchanged; otherwise the data of the slot at the
cursor `j` is released to the underlying allocator, slot `j` becomes `(s, p)` and the
cursor becomes `(j + 1) mod 16`; in both cases every other slot is unchanged. -/
theorem mmc_free_placement (thr : Nat) (c : Cache) (p s : Nat) (hc : c.WF) (hs : s < thr) :
    ((∃ b ∈ c.mm, b.size = 0) →
      ∃ k, k < M4RI_MMC_NBLOCKS ∧
        (c.mm.getD k { size := 0, data := 0 }).size = 0 ∧
        (∀ i, i < k → (c.mm.getD i { size := 0, data := 0 }).size ≠ 0) ∧
        m4ri_mmc_free thr c p s =
          { cache := { mm := c.mm.set k { size := s, data := p }, j := c.j }, trace := [] } ∧
        (c.mm.set k { size := s, data := p }).getD k { size := 0, data := 0 }
          = { size := s, data := p } ∧
        ∀ i, i ≠ k → (c.mm.set k { size := s, data := p }).getD i { size := 0, data := 0 }
          = c.mm.getD i { size := 0, data := 0 }) ∧
    ((∀ b ∈ c.mm, b.size ≠ 0) →
      m4ri_mmc_free thr c p s =
        { cache := { mm := c.mm.set c.j { size := s, data := p },
                     j := (c.j + 1) % M4RI_MMC_NBLOCKS },
          trace := [Ext.free (c.mm.getD c.j { size := 0, data := 0 }).data] } ∧
      (c.mm.set c.j { size := s, data := p }).getD c.j { size := 0, data := 0 }
        = { size := s, data := p } ∧
      ∀ i, i ≠ c.j → (c.mm.set c.j { size := s, data := p }).getD i { size := 0, data := 0 }
        = c.mm.getD i { size := 0, data := 0 }) := by
  constructor
  · intro hex
    obtain ⟨hlt, h0, hlow⟩ := firstEmpty_spec c.mm hex
    have hr : recvSlot c = c.mm.findIdx (fun b => b.size == 0) := by
      unfold recvSlot
      rw [if_pos hlt]
    have hfr := getD_set_frame c.mm _ { size := s, data := p } hlt
    refine ⟨c.mm.findIdx (fun b => b.size == 0), by rw [← hc.1]; exact hlt, h0, hlow, ?_,
      hfr.1, hfr.2⟩
    rw [m4ri_mmc_free_below thr c p s hs, if_pos hlt, hr]
  · intro hfull
    have hnot : ¬ c.mm.findIdx (fun b => b.size == 0) < c.mm.length := by
      intro hlt
      have h1 := List.findIdx_getElem (w := hlt)
      have h2 := hfull _ (List.getElem_mem hlt)
      simp at h1
      exact h2 h1
    have hr : recvSlot c = c.j := by
      unfold recvSlot
      rw [if_neg hnot]
    have hj : c.j < c.mm.length := by rw [hc.1]; exact hc.2
    have hfr := getD_set_frame c.mm c.j { size := s, data := p } hj
    refine ⟨?_, hfr.1, hfr.2⟩
    rw [m4ri_mmc_free_below thr c p s hs, if_neg hnot, hr]

/-- Witness for C18: a block of 16 bytes freed into the initial cache lands in slot 0. -/
theorem mmc_free_placement_witness :
    ∃ k, k < M4RI_MMC_NBLOCKS ∧
      (Cache.init.mm.getD k { size := 0, data := 0 }).size = 0 ∧
      (∀ i, i < k → (Cache.init.mm.getD i { size := 0, data := 0 }).size ≠ 0) ∧
      m4ri_mmc_free M4RI_MMC_THRESHOLD Cache.init 4096 16 =
        { cache := { mm := Cache.init.mm.set k { size := 16, data := 4096 },
                     j := Cache.init.j }, trace := [] } ∧
      (Cache.init.mm.set k { size := 16, data := 4096 }).getD k { size := 0, data := 0 }
        = { size := 16, data := 4096 } ∧
      ∀ i, i ≠ k →
        (Cache.init.mm.set k { size := 16, data := 4096 }).getD i { size := 0, data := 0 }
          = Cache.init.mm.getD i { size := 0, data := 0 } :=
  (mmc_free_placement M4RI_MMC_THRESHOLD Cache.init 4096 16 (by decide) (by decide)).1
    ⟨{ size := 0, data := 0 }, by decide, rfl⟩

/-- C19 fails as stated. On the initial cache every slot has size 0, so
`m4ri_mmc_malloc(0)` matches slot 0, whose data pointer is null: the underlying allocator
is called and its answer `300` is returned. Likewise after `m4ri_mmc_free(NULL, 8)` the
request `m4ri_mmc_malloc(8)` matches slot 0, clears it, and goes to the allocator. -/
theorem mmc_malloc_lookup_counterexample :
    (0 ≤ M4RI_MMC_THRESHOLD ∧ (Cache.init.mm.getD 0 { size := 0, data := 0 }).size = 0) ∧
    m4ri_mmc_malloc M4RI_MMC_THRESHOLD Cache.init 0 300 =
      { cache := Cache.init, ret := some 300, trace := [Ext.malloc 0] } ∧
    (m4ri_mmc_free M4RI_MMC_THRESHOLD Cache.init 0 8).cache =
      { mm := { size := 8, data := 0 } :: List.replicate 15 { size := 0, data := 0 },
        j := 0 } ∧
    m4ri_mmc_malloc M4RI_MMC_THRESHOLD
        (m4ri_mmc_free M4RI_MMC_THRESHOLD Cache.init 0 8).cache 8 300 =
      { cache := Cache.init, ret := some 300, trace := [Ext.malloc 8] } := by
  decide

/-- C19 (as amended). For `size` within the threshold, `m4ri_mmc_malloc(size)`: if some slot
has size equal to the request, the lowest-index such slot `k` is cleared (size 0, data
null) and every other slot is unchanged; when its former data pointer is non-null, that
pointer is returned with no call to the underlying allocator, and when it is null the
result is the underlying allocator's. If no slot's size equals the request, the cache
state is unchanged and the result is the underlying allocator's. -/
theorem mmc_malloc_lookup (thr : Nat) (c : Cache) (size sys : Nat) (hsz : size ≤ thr) :
    (∀ k, k < c.mm.length →
      (c.mm.getD k { size := 0, data := 0 }).size = size →
      (∀ i, i < k → (c.mm.getD i { size := 0, data := 0 }).size ≠ size) →
        (m4ri_mmc_malloc thr c size sys).cache =
          { mm := c.mm.set k { size := 0, data := 0 }, j := c.j } ∧
        (c.mm.set k { size := 0, data := 0 }).getD k { size := 0, data := 0 }
          = { size := 0, data := 0 } ∧
        (∀ i, i ≠ k → (c.mm.set k { size := 0, data := 0 }).getD i { size := 0, data := 0 }
          = c.mm.getD i { size := 0, data := 0 }) ∧
        ((c.mm.getD k { size := 0, data := 0 }).data ≠ 0 →
          (m4ri_mmc_malloc thr c size sys).ret
            = some (c.mm.getD k { size := 0, data := 0 }).data ∧
          (m4ri_mmc_malloc thr c size sys).trace = []) ∧
        ((c.mm.getD k { size := 0, data := 0 }).data = 0 →
          (m4ri_mmc_malloc thr c size sys).ret = (m4ri_mm_malloc size sys).1 ∧
          (m4ri_mmc_malloc thr c size sys).trace = (m4ri_mm_malloc size sys).2)) ∧
    ((∀ b ∈ c.mm, b.size ≠ size) →
      m4ri_mmc_malloc thr c size sys =
        { cache := c, ret := (m4ri_mm_malloc size sys).1,
          trace := (m4ri_mm_malloc size sys).2 }) := by
  constructor
  · intro k hk hsize hlow
    have hl : mmcLookup thr c size =
        ((c.mm.getD k { size := 0, data := 0 }).data,
          c.mm.set k { size := 0, data := 0 }) := by
      unfold mmcLookup
      rw [if_pos hsz]
      exact mallocScan_hit size c.mm k hk hsize hlow
    have hfr := getD_set_frame c.mm k { size := 0, data := 0 } hk
    refine ⟨?_, hfr.1, hfr.2, ?_, ?_⟩
    · unfold m4ri_mmc_malloc
      rw [hl]
      dsimp only
      split <;> rfl
    · intro hd
      unfold m4ri_mmc_malloc
      rw [hl]
      dsimp only
      rw [if_pos hd]
      exact ⟨rfl, rfl⟩
    · intro hd
      unfold m4ri_mmc_malloc
      rw [hl]
      dsimp only
      rw [if_neg (not_not.2 hd)]
      exact ⟨rfl, rfl⟩
  · exact m4ri_mmc_malloc_miss thr c size sys

/-- Witness for C19 (as amended): a request of 16 bytes on `cacheOne` is served from
slot 0, which is cleared. -/
theorem mmc_malloc_lookup_witness :
    (m4ri_mmc_malloc M4RI_MMC_THRESHOLD cacheOne 16 0).cache =
      { mm := cacheOne.mm.set 0 { size := 0, data := 0 }, j := cacheOne.j } ∧
    (m4ri_mmc_malloc M4RI_MMC_THRESHOLD cacheOne 16 0).ret
      = some (cacheOne.mm.getD 0 { size := 0, data := 0 }).data :=
  ⟨((mmc_malloc_lookup M4RI_MMC_THRESHOLD cacheOne 16 0 (by decide)).1 0
      (by decide) (by decide) (by decide)).1,
   (((mmc_malloc_lookup M4RI_MMC_THRESHOLD cacheOne 16 0 (by decide)).1 0
      (by decide) (by decide) (by decide)).2.2.2.1 (by decide)).1⟩

theorem m4ri_mmc_malloc_cache (thr : Nat) (c : Cache) (size sys : Nat) :
    (m4ri_mmc_malloc thr c size sys).cache = { mm := (mmcLookup thr c size).2, j := c.j } := by
  unfold m4ri_mmc_malloc
  dsimp only
  split <;> rfl

theorem m4ri_mmc_calloc_fst (thr : Nat) (c : Cache) (size count sys : Nat)
    (mem : Nat → Nat) :
    (m4ri_mmc_calloc thr c size count sys mem).1 =
      m4ri_mmc_malloc thr c ((size * count) % 2 ^ 64) sys := by
  unfold m4ri_mmc_calloc
  dsimp only
  split <;> rfl

/-- Every call of the cache interface keeps the array at 16 slots, the cursor below 16 and
every slot size below the (nonzero) threshold. -/
theorem step_invariant (thr : Nat) (hthr : 0 < thr) (c : Cache) (op : Op)
    (hc : c.WF) (hs : ∀ b ∈ c.mm, b.size < thr) :
    (step thr c op).WF ∧ ∀ b ∈ (step thr c op).mm, b.size < thr := by
  have hmalloc : ∀ size sys, (m4ri_mmc_malloc thr c size sys).cache.WF ∧
      ∀ b ∈ (m4ri_mmc_malloc thr c size sys).cache.mm, b.size < thr := by
    intro size sys
    rw [m4ri_mmc_malloc_cache]
    unfold mmcLookup
    split
    · exact ⟨⟨by rw [mallocScan_length]; exact hc.1, hc.2⟩,
        mallocScan_sizes size thr hthr c.mm hs⟩
    · exact ⟨hc, hs⟩
  cases op with
  | malloc size sys => exact hmalloc size sys
  | calloc size count sys =>
    show (m4ri_mmc_calloc thr c size count sys (fun _ => 0)).1.cache.WF ∧
      ∀ b ∈ (m4ri_mmc_calloc thr c size count sys (fun _ => 0)).1.cache.mm, b.size < thr
    rw [m4ri_mmc_calloc_fst]
    exact hmalloc _ sys
  | free condemned size =>
    show (m4ri_mmc_free thr c condemned size).cache.WF ∧
      ∀ b ∈ (m4ri_mmc_free thr c condemned size).cache.mm, b.size < thr
    by_cases hsz : size < thr
    · have hmem : ∀ b ∈ c.mm.set (recvSlot c) { size := size, data := condemned },
          b.size < thr := by
        intro b hb
        rcases List.mem_or_eq_of_mem_set hb with h | h
        · exact hs b h
        · rw [h]; exact hsz
      have hlen : (c.mm.set (recvSlot c) { size := size, data := condemned }).length
          = M4RI_MMC_NBLOCKS := by
        rw [List.length_set]; exact hc.1
      rw [m4ri_mmc_free_below thr c condemned size hsz]
      split
      · exact ⟨⟨hlen, hc.2⟩, hmem⟩
      · exact ⟨⟨hlen, Nat.mod_lt _ (by decide)⟩, hmem⟩
    · unfold m4ri_mmc_free
      rw [if_neg hsz]
      exact ⟨hc, hs⟩
  | cleanup =>
    show (m4ri_mmc_cleanup c).cache.WF ∧ ∀ b ∈ (m4ri_mmc_cleanup c).cache.mm, b.size < thr
    unfold m4ri_mmc_cleanup
    rw [cleanupLoop_fst]
    refine ⟨⟨by simpa using hc.1, hc.2⟩, ?_⟩
    intro b hb
    obtain ⟨a, _, rfl⟩ := List.mem_map.1 hb
    exact hthr

theorem run_invariant (thr : Nat) (hthr : 0 < thr) (ops : List Op) (c : Cache)
    (hc : c.WF) (hs : ∀ b ∈ c.mm, b.size < thr) :
    (run thr c ops).WF ∧ ∀ b ∈ (run thr c ops).mm, b.size < thr := by
  induction ops generalizing c with
  | nil => exact ⟨hc, hs⟩
  | cons op ops ih =>
    have h := step_invariant thr hthr c op hc hs
    exact ih (step thr c op) h.1 h.2

/-- C20. Starting from the all-empty cache with cursor 0, after any sequence of
`m4ri_mmc_malloc`, `m4ri_mmc_calloc`, `m4ri_mmc_free` and `m4ri_mmc_cleanup` calls (with a
threshold that is not zero, as the header guarantees for `CPU_L2_CACHE`), the array has its
16 slots, the cursor `j` satisfies `j < 16`, every slot's size is strictly less than the
threshold, and so a `m4ri_mmc_malloc` of exactly the threshold size does not hit: it
leaves the cache unchanged and hands the request to the underlying allocator. -/
theorem mmc_reachable_invariant (thr : Nat) (hthr : 0 < thr) (ops : List Op) :
    (run thr Cache.init ops).mm.length = M4RI_MMC_NBLOCKS ∧
    (run thr Cache.init ops).j < M4RI_MMC_NBLOCKS ∧
    (∀ b ∈ (run thr Cache.init ops).mm, b.size < thr) ∧
    ∀ sys, m4ri_mmc_malloc thr (run thr Cache.init ops) thr sys =
      { cache := run thr Cache.init ops, ret := (m4ri_mm_malloc thr sys).1,
        trace := (m4ri_mm_malloc thr sys).2 } := by
  have hinit : ∀ b ∈ Cache.init.mm, b.size < thr := by
    intro b hb
    rw [(List.eq_of_mem_replicate hb : b = { size := 0, data := 0 })]
    exact hthr
  have h := run_invariant thr hthr ops Cache.init (by decide) hinit
  refine ⟨h.1.1, h.1.2, h.2, fun sys => ?_⟩
  exact m4ri_mmc_malloc_miss thr _ thr sys (fun b hb => Nat.ne_of_lt (h.2 b hb))

/-- Witness for C20: after a free, a cleanup, a calloc and seventeen more frees at the default
threshold the cursor is in range and a request of threshold size misses. -/
theorem mmc_reachable_invariant_witness :
    (run M4RI_MMC_THRESHOLD Cache.init
      ([Op.free 4096 8, Op.cleanup, Op.calloc 4 2 8192] ++
        blocks17.map (fun b => Op.free b.data b.size))).j < M4RI_MMC_NBLOCKS ∧
    ∀ b ∈ (run M4RI_MMC_THRESHOLD Cache.init
      ([Op.free 4096 8, Op.cleanup, Op.calloc 4 2 8192] ++
        blocks17.map (fun b => Op.free b.data b.size))).mm, b.size < M4RI_MMC_THRESHOLD :=
  ⟨(mmc_reachable_invariant M4RI_MMC_THRESHOLD (by decide)
      ([Op.free 4096 8, Op.cleanup, Op.calloc 4 2 8192] ++
        blocks17.map (fun b => Op.free b.data b.size))).2.1,
   (mmc_reachable_invariant M4RI_MMC_THRESHOLD (by decide)
      ([Op.free 4096 8, Op.cleanup, Op.calloc 4 2 8192] ++
        blocks17.map (fun b => Op.free b.data b.size))).2.2.1⟩

end M4RI
